import Mathlib

/-!
Verification development for the `fsy` peer-to-peer file synchronisation
daemon.  The Rust sources under `src/` are shallowly embedded: Rust
`String` values become `List Char`, fallible parses become `Option`,
the side-effecting handlers become pure functions returning the list of
transport/filesystem effects they perform together with the follow-up
actions they enqueue, and the ring-buffer queue becomes a record with a
functional buffer.
-/

/-- Strings of the Rust source are modelled as lists of characters. -/
abbrev Str := List Char

/-- Model of Rust `str::split_once(pat)`: splits at the first occurrence of
`sep`, returning the parts before and after it, or `none` when `sep` does
not occur. -/
def splitOnce (sep : Str) : Str → Option (Str × Str)
  | [] => if sep = [] then some ([], []) else none
  | c :: rest =>
    if sep.isPrefixOf (c :: rest) then some ([], (c :: rest).drop sep.length)
    else
      match splitOnce sep rest with
      | some (pre, post) => some (c :: pre, post)
      | none => none

/-- Model of Rust `str::split(pat)` for a single-character pattern: the
list of `sep`-separated fields; the empty string yields one empty field. -/
def splitChar (sep : Char) : Str → List Str
  | [] => [[]]
  | c :: rest =>
    match splitChar sep rest with
    | [] => if c = sep then [[], []] else [[c]]
    | h :: t => if c = sep then [] :: h :: t else (c :: h) :: t

/-- Helper for the Rust integer `from_str` parsers: the numeric value of a
non-empty all-ASCII-digit string, `none` otherwise. -/
def parseDigits (s : Str) : Option Nat :=
  if s = [] then none
  else if s.all Char.isDigit then
    some (s.foldl (fun acc c => acc * 10 + (c.toNat - 48)) 0)
  else none

/-- Model of Rust `str::parse::<u8>()`: an optional leading `+`, then one
or more ASCII digits, value at most 255.  A leading `-` is rejected for
the unsigned type, exactly as in Rust. -/
def parseU8 (s : Str) : Option Nat :=
  let t := match s with
           | '+' :: rest => rest
           | _ => s
  match parseDigits t with
  | some n => if n ≤ 255 then some n else none
  | none => none

/-- Model of Rust `str::parse::<i64>()`: optional sign, one or more ASCII
digits, value within the `i64` range. -/
def parseI64 (s : Str) : Option Int :=
  match s with
  | '-' :: rest =>
    match parseDigits rest with
    | some n => if n ≤ 2 ^ 63 then some (-(n : Int)) else none
    | none => none
  | '+' :: rest =>
    match parseDigits rest with
    | some n => if n < 2 ^ 63 then some ((n : Int)) else none
    | none => none
  | _ =>
    match parseDigits s with
    | some n => if n < 2 ^ 63 then some ((n : Int)) else none
    | none => none

/-- Days from the civil (proleptic Gregorian) date to 1970-01-01, after
Howard Hinnant's algorithm; used to model the `chrono` library relied on
by `src/action.rs`. -/
def daysFromCivil (y : Int) (m d : Nat) : Int :=
  let y1 := y - (if m ≤ 2 then 1 else 0)
  let era := Int.fdiv y1 400
  let yoe := (y1 - era * 400).toNat
  let mp := (m + 9) % 12
  let doy := (153 * mp + 2) / 5 + d - 1
  let doe := yoe * 365 + yoe / 4 - yoe / 100 + doy
  era * 146097 + (doe : Int) - 719468

/-- Civil date from days since 1970-01-01, after Howard Hinnant's
algorithm; inverse of `daysFromCivil`. -/
def civilFromDays (z0 : Int) : Int × Nat × Nat :=
  let z := z0 + 719468
  let era := Int.fdiv z 146097
  let doe := (z - era * 146097).toNat
  let yoe := (doe - doe / 1460 + doe / 36524 - doe / 146096) / 365
  let doy := doe - (365 * yoe + yoe / 4 - yoe / 100)
  let mp := (5 * doy + 2) / 153
  let d := doy - (153 * mp + 2) / 5 + 1
  let m := if mp < 10 then mp + 3 else mp - 9
  ((yoe : Int) + era * 400 + (if m ≤ 2 then 1 else 0), m, d)

/-- Model of `chrono::DateTime<Utc>` with whole-second precision, which is
all `src/action.rs` ever constructs (`DateTime::from_timestamp(ts, 0)`). -/
structure DateTimeUtc where
  secs : Int
deriving DecidableEq

/-- Smallest unix timestamp representable by chrono (`NaiveDate::MIN`,
year -262144). -/
def dateTimeMinSecs : Int := 86400 * daysFromCivil (-262144) 1 1

/-- Largest whole-second unix timestamp representable by chrono
(`NaiveDate::MAX`, year 262143, at 23:59:59). -/
def dateTimeMaxSecs : Int := 86400 * daysFromCivil 262143 12 31 + 86399

/-- Model of `chrono::DateTime::from_timestamp(ts, 0)`: `none` outside the
representable range. -/
def dateTimeFromTimestamp (ts : Int) : Option DateTimeUtc :=
  if dateTimeMinSecs ≤ ts ∧ ts ≤ dateTimeMaxSecs then some ⟨ts⟩ else none

/-- Zero-padding to two digits, as in chrono's `%m`, `%d`, `%H`, `%M`,
`%S` fields. -/
def pad2 (n : Nat) : Str :=
  if n < 10 then '0' :: Nat.toDigits 10 n else Nat.toDigits 10 n

/-- Zero-padding to four digits, as in chrono's `%Y` field. -/
def pad4 (n : Nat) : Str :=
  List.replicate (4 - (Nat.toDigits 10 n).length) '0' ++ Nat.toDigits 10 n

/-- Year rendering of chrono's `Display`, with a sign for negative years. -/
def displayYear (y : Int) : Str :=
  if y < 0 then '-' :: pad4 (-y).toNat else pad4 y.toNat

/-- Model of the `Display` rendering of `chrono::DateTime<Utc>` used by
`format!` in `CommAction::to_send_message`: the form
`YYYY-MM-DD HH:MM:SS UTC`. -/
def displayDateTime (dt : DateTimeUtc) : Str :=
  let days := Int.fdiv dt.secs 86400
  let sod := (dt.secs - days * 86400).toNat
  match civilFromDays days with
  | (y, m, d) =>
    displayYear y ++ '-' :: pad2 m ++ '-' :: pad2 d ++
      ' ' :: (pad2 (sod / 3600) ++ ':' :: pad2 (sod % 3600 / 60) ++ ':' :: pad2 (sod % 60) ++
        ' ' :: ['U', 'T', 'C'])

example : daysFromCivil 1970 1 1 = 0 := by decide
example : civilFromDays 19675 = (2023, 11, 14) := by decide
example : displayDateTime ⟨1700000000⟩ = "2023-11-14 22:13:20 UTC".data := by decide
example : displayDateTime ⟨0⟩ = "1970-01-01 00:00:00 UTC".data := by decide
example : displayDateTime ⟨-1⟩ = "1969-12-31 23:59:59 UTC".data := by decide

/-- The wire delimiter between the namespace tag and the body
(`src/action.rs`, `get_ns_split` / `template_msg_with_ns`). -/
def nsDelim : Str := "]]::".data

/-- The action namespaces of `src/action.rs` (`enum ActionNamespace`). -/
inductive ActionNamespace
  | Unknown
  | SendMessage
  | TargetHasChanged
  | RequestTarget
  | DownloadTarget
  | DownloadDone
  | RequestTargetTimestamp
  | TargetTimestamp
deriving DecidableEq

/-- `ActionNamespace::to_u8` from `src/action.rs`. -/
def ActionNamespace.to_u8 : ActionNamespace → Nat
  | .SendMessage => 1
  | .TargetHasChanged => 2
  | .RequestTarget => 3
  | .DownloadTarget => 4
  | .DownloadDone => 5
  | .RequestTargetTimestamp => 6
  | .TargetTimestamp => 7
  | _ => 0

/-- `impl From<String> for ActionNamespace` from `src/action.rs`: parse as
`u8`, map tags 1..7, anything else (including parse failures) to
`Unknown`. -/
def ActionNamespace.ofString (s : Str) : ActionNamespace :=
  match parseU8 s with
  | some 1 => .SendMessage
  | some 2 => .TargetHasChanged
  | some 3 => .RequestTarget
  | some 4 => .DownloadTarget
  | some 5 => .DownloadDone
  | some 6 => .RequestTargetTimestamp
  | some 7 => .TargetTimestamp
  | _ => .Unknown

/-- `get_ns_split` from `src/action.rs`: split the raw message at the
first `]]::`; without a delimiter the namespace is `Unknown` and the body
is empty. -/
def get_ns_split (raw_msg : Str) : ActionNamespace × Str :=
  match splitOnce nsDelim raw_msg with
  | some (module, rest) => (ActionNamespace.ofString module, rest)
  | none => (.Unknown, [])

/-- The single decimal digit produced by `Display for ActionNamespace`
(which prints `to_u8`). -/
def nsChar (ns : ActionNamespace) : Char := Char.ofNat (48 + ns.to_u8)

/-- `template_msg_with_ns` from `src/action.rs`:
`format!("{namespace}]]::{raw_msg}")`. -/
def template_msg_with_ns (ns : ActionNamespace) (raw_msg : Str) : Str :=
  nsChar ns :: nsDelim ++ raw_msg

/-- The `CommAction` enum from `src/action.rs`. -/
inductive CommAction
  | Unknown
  | SendMessage (to_node_id : Str) (msg : Str)
  | TargetHasChanged (to_node_id : Str) (target_name : Str) (relative_path : Str)
  | RequestTarget (from_node_id : Str) (target_name : Str) (relative_path : Str)
  | DownloadTarget (from_node_id : Str) (target_name : Str) (relative_path : Str)
      (ticket_id : Str)
  | DownloadDone (from_node_id : Str) (ticket_id : Str)
  | RequestTargetTimestamp (from_node_id : Str) (target_name : Str)
  | TargetTimestamp (from_node_id : Str) (target_name : Str) (timestamp : DateTimeUtc)
deriving DecidableEq

/-- The field-collecting loop of the `DownloadTarget` arm of
`CommAction::from_namespaced_msg`: fills name, relative path and ticket
from the first three fields, breaks on the fourth, and reports the final
loop counter. -/
def downloadTargetLoop : List Str → Nat → Str → Str → Str → Nat × Str × Str × Str
  | [], count, n, r, t => (count, n, r, t)
  | s :: rest, count, n, r, t =>
    match count with
    | 0 => downloadTargetLoop rest 1 s r t
    | 1 => downloadTargetLoop rest 2 n s t
    | 2 => downloadTargetLoop rest 3 n r s
    | _ => (count, n, r, t)

/-- `CommAction::from_namespaced_msg` from `src/action.rs`: decode a raw
wire payload received from `node_id`. -/
def CommAction.from_namespaced_msg (node_id : Str) (raw_msg : Str) : CommAction :=
  match get_ns_split raw_msg with
  | (module, raw) =>
    match module with
    | .SendMessage => .SendMessage node_id raw
    | .TargetHasChanged =>
      match splitOnce [';'] raw with
      | some (a, b) => .TargetHasChanged node_id a b
      | none => .Unknown
    | .RequestTarget =>
      match splitOnce [';'] raw with
      | some (a, b) => .RequestTarget node_id a b
      | none => .Unknown
    | .DownloadTarget =>
      match downloadTargetLoop (splitChar ';' raw) 0 [] [] [] with
      | (count, target_name, relative_path, ticket_id) =>
        if count ≠ 3 then .Unknown
        else .DownloadTarget node_id target_name relative_path ticket_id
    | .DownloadDone => .DownloadDone node_id raw
    | .RequestTargetTimestamp => .RequestTargetTimestamp node_id raw
    | .TargetTimestamp =>
      match splitOnce [';'] raw with
      | some (a, b) =>
        match parseI64 b with
        | some ts =>
          match dateTimeFromTimestamp ts with
          | some timestamp => .TargetTimestamp node_id a timestamp
          | none => .Unknown
        | none => .Unknown
      | none => .Unknown
    | .Unknown => .Unknown

/-- `CommAction::to_send_message` from `src/action.rs`: wrap an action
into the `SendMessage` that carries its encoded wire form. -/
def CommAction.to_send_message : CommAction → CommAction
  | .SendMessage to_node_id msg => .SendMessage to_node_id msg
  | .TargetHasChanged to_node_id target_name relative_path =>
    .SendMessage to_node_id
      (template_msg_with_ns .TargetHasChanged (target_name ++ ';' :: relative_path))
  | .RequestTarget to_node_id target_name relative_path =>
    .SendMessage to_node_id
      (template_msg_with_ns .RequestTarget (target_name ++ ';' :: relative_path))
  | .DownloadTarget from_node_id target_name relative_path ticket_id =>
    .SendMessage from_node_id
      (template_msg_with_ns .DownloadTarget
        (target_name ++ ';' :: relative_path ++ ';' :: ticket_id))
  | .DownloadDone from_node_id ticket_id =>
    .SendMessage from_node_id (template_msg_with_ns .DownloadDone ticket_id)
  | .RequestTargetTimestamp from_node_id target_name =>
    .SendMessage from_node_id (template_msg_with_ns .RequestTargetTimestamp target_name)
  | .TargetTimestamp from_node_id target_name timestamp =>
    .SendMessage from_node_id
      (template_msg_with_ns .TargetTimestamp
        (target_name ++ ';' :: displayDateTime timestamp))
  | .Unknown => .Unknown

example :
    CommAction.from_namespaced_msg "nodeA".data "2]]::photos;vacation/img1.jpg".data =
      CommAction.TargetHasChanged "nodeA".data "photos".data "vacation/img1.jpg".data := by
  decide

/-- `NodeData` from `src/target.rs`. -/
structure NodeData where
  name : Str
  id : Str
deriving DecidableEq

/-- `TargetMode` from `src/target.rs`. -/
inductive TargetMode
  | Push
  | PushPull
  | Pull
deriving DecidableEq

/-- `Target` from `src/target.rs`. -/
structure Target where
  mode : TargetMode
  node_name : Str
deriving DecidableEq

/-- `TargetGroup` from `src/target.rs`. -/
structure TargetGroup where
  name : Str
  path : Str
  targets : List Target
deriving DecidableEq

/-- `get_push_group_with_name` from `src/target.rs`: the first group with
the given name that has at least one `Push` or `PushPull` target. -/
def get_push_group_with_name (groups : List TargetGroup) (name : Str) :
    Option TargetGroup :=
  groups.findSome? fun item =>
    let found := item.targets.any fun t =>
      t.mode = TargetMode.Push ∨ t.mode = TargetMode.PushPull
    if ¬found ∨ item.name ≠ name then none else some item

/-- `get_pull_group_with_name` from `src/target.rs`: the first group with
the given name that has at least one `Pull` or `PushPull` target. -/
def get_pull_group_with_name (groups : List TargetGroup) (name : Str) :
    Option TargetGroup :=
  groups.findSome? fun item =>
    let found := item.targets.any fun t =>
      t.mode = TargetMode.Pull ∨ t.mode = TargetMode.PushPull
    if ¬found ∨ item.name ≠ name then none else some item

/-- `group_has_node_id` from `src/target.rs`: some node-directory entry
has the given id and its name appears among the group's targets. -/
def group_has_node_id (group : TargetGroup) (nodes : List NodeData)
    (node_id : Str) : Bool :=
  nodes.any fun node =>
    if node.id ≠ node_id then false
    else group.targets.any fun target => target.node_name = node.name

/-- Observable side effects of the handlers: the transport calls of
`src/connection.rs` plus filesystem marker operations, so that the
presence or absence of lock-marker file manipulation is expressible. -/
inductive Effect
  | publishTicket (path : Str)
  | download (ticket_id : Str) (dest : Str)
  | createFile (path : Str)
  | removeFile (path : Str)
deriving DecidableEq

/-- Model of Rust `Path::new(base).join(rel)` for string paths: an
absolute `rel` replaces `base`; otherwise the two are joined with a `/`
separator unless `base` already ends in one or is empty. -/
def pathJoin (base rel : Str) : Str :=
  if rel.head? = some '/' then rel
  else if base = [] then rel
  else if base.getLast? = some '/' then base ++ rel
  else base ++ '/' :: rel

/-- Model of `Connection::get_file_ticket` (`src/connection.rs` lines
111-119): registers `file_path` with the blob store and returns a ticket.
The effect records the path handed to the transport; the ticket contents
are an uninterpreted oracle of the path. -/
def Connection.get_file_ticket (ticketOf : Str → Str) (file_path : Str) :
    List Effect × Str :=
  ([Effect.publishTicket file_path], ticketOf file_path)

/-- Model of `Connection::download_ticket_to_path` (`src/connection.rs`
lines 121-172): fetches the blob of `ticket_id` and exports it to
`file_path`.  The source performs no filesystem operation besides the
download/export itself; in particular it never creates or removes any
marker file. -/
def Connection.download_ticket_to_path (ticket_id file_path : Str) : List Effect :=
  [Effect.download ticket_id file_path]

/-- `on_target_has_changed` from `src/action.rs` (lines 325-341): the
follow-up actions produced on a `TargetHasChanged` notification. -/
def on_target_has_changed (target_groups : List TargetGroup)
    (to_node_id target_name relative_path : Str) : List CommAction :=
  match get_pull_group_with_name target_groups target_name with
  | some target =>
    [(CommAction.RequestTarget to_node_id target.name relative_path).to_send_message]
  | none => []

/-- `on_request_target` from `src/action.rs` (lines 343-364): the
transport effects performed and the follow-up actions produced on a
`RequestTarget`. -/
def on_request_target (ticketOf : Str → Str) (target_groups : List TargetGroup)
    (from_node_id target_name relative_path : Str) :
    List Effect × List CommAction :=
  match get_push_group_with_name target_groups target_name with
  | some target =>
    match Connection.get_file_ticket ticketOf target.path with
    | (effects, ticket_id) =>
      (effects,
        [(CommAction.DownloadTarget from_node_id target_name relative_path
            ticket_id).to_send_message])
  | none => ([], [])

/-- `on_download_target` from `src/action.rs` (lines 366-396): the
transport effects performed on a `DownloadTarget`; the handler produces
no follow-up actions. -/
def on_download_target (target_groups : List TargetGroup)
    (nodes : List NodeData) (from_node_id target_name relative_path ticket_id : Str) :
    List Effect :=
  match get_pull_group_with_name target_groups target_name with
  | some target =>
    if ¬group_has_node_id target nodes from_node_id then []
    else Connection.download_ticket_to_path ticket_id (pathJoin target.path relative_path)
  | none => []

/-- `ChangedTarget` from `src/path_watcher.rs`. -/
structure ChangedTarget where
  base_path : Str
  relative_path : Str
deriving DecidableEq

/-- Model of Rust `str::contains(pat)`: `pat` occurs as a contiguous
substring. -/
def strContains (s pat : Str) : Bool :=
  match s with
  | [] => pat.isEmpty
  | _ :: rest => pat.isPrefixOf s || strContains rest pat

/-- Recursion core of `replaceAll`; the fuel bounds the number of steps
and is always at least the length of the string being scanned. -/
def replaceAllFuel (pat rep : Str) : Nat → Str → Str
  | _, [] => []
  | 0, s => s
  | fuel + 1, c :: rest =>
    if pat ≠ [] ∧ pat.isPrefixOf (c :: rest) then
      rep ++ replaceAllFuel pat rep fuel (rest.drop (pat.length - 1))
    else c :: replaceAllFuel pat rep fuel rest

/-- Model of Rust `str::replace(pat, to)` for a non-empty pattern:
replaces every non-overlapping occurrence of `pat`, left to right.  (For
the empty pattern with an empty replacement, which the watcher never
uses with effect, the string is returned unchanged, as in Rust.) -/
def replaceAll (pat rep s : Str) : Str := replaceAllFuel pat rep s.length s

/-- `get_push_targets_with_file` from `src/path_watcher.rs` (lines
102-125): the `ChangedTarget` records produced for a changed filesystem
path against the registered push base paths. -/
def get_push_targets_with_file (push_paths : List Str) (file_path : Str) :
    List ChangedTarget :=
  push_paths.filterMap fun base_path =>
    if ¬strContains file_path base_path then none
    else if base_path = file_path then
      some { base_path := base_path, relative_path := [] }
    else
      some { base_path := base_path, relative_path := replaceAll base_path [] file_path }

example :
    get_push_targets_with_file ["/tmp/docs".data] "/tmp/docs/x.txt".data =
      [{ base_path := "/tmp/docs".data, relative_path := "/x.txt".data }] := by decide

/-- `MAX_CAPACITY` from `src/queue.rs`. -/
def MAX_CAPACITY : Nat := 1000

/-- The `Queue` struct from `src/queue.rs`.  The fixed
`[Option<T>; MAX_CAPACITY]` backing array is modelled as a function from
indices to optional items; the operations only ever index below
`capacity ≤ MAX_CAPACITY`. -/
structure Queue (T : Type) where
  capacity : Nat
  head : Nat
  tail : Nat
  buffer : Nat → Option T

/-- `Queue::new` from `src/queue.rs`: capacity clamped into
`[1, MAX_CAPACITY]`, both cursors at 0, an empty buffer. -/
def Queue.new (T : Type) (capacity : Nat) : Queue T :=
  { capacity := min (max capacity 1) MAX_CAPACITY
    head := 0
    tail := 0
    buffer := fun _ => none }

/-- `Queue::get_first_position`. -/
def Queue.get_first_position (q : Queue T) : Nat := q.head

/-- `Queue::get_next_first_position`: advance the head cursor with wrap
around at `capacity`. -/
def Queue.get_next_first_position (q : Queue T) : Nat :=
  let pos := q.get_first_position + 1
  if pos ≥ q.capacity then 0 else pos

/-- `Queue::get_curr_position`. -/
def Queue.get_curr_position (q : Queue T) : Nat := q.tail

/-- `Queue::get_next_position`: the write position for the next push; the
tail does not advance while its slot is still empty. -/
def Queue.get_next_position (q : Queue T) : Nat :=
  let curr := q.get_curr_position
  if (q.buffer curr).isNone then curr
  else
    let pos := curr + 1
    if pos ≥ q.capacity then 0 else pos

/-- `Queue::has_wrapped`: the slot after the tail is occupied. -/
def Queue.has_wrapped (q : Queue T) : Bool :=
  (q.buffer q.get_next_position).isSome

/-- `Queue::is_empty` from `src/queue.rs`. -/
def Queue.is_empty (q : Queue T) : Bool :=
  if q.capacity = 0 then true
  else if q.head = q.tail ∧ (q.buffer q.head).isNone then true
  else false

/-- `Queue::push` from `src/queue.rs`: write at the next tail position;
when the write has caught up with the head, advance the head (evicting
the oldest item). -/
def Queue.push (q : Queue T) (item : T) : Queue T :=
  if q.capacity = 0 then q
  else
    let q1 : Queue T := { q with tail := q.get_next_position }
    let q2 : Queue T := { q1 with buffer := Function.update q1.buffer q1.tail (some item) }
    if q2.has_wrapped then { q2 with head := q2.get_next_position } else q2

/-- `Queue::pop` from `src/queue.rs`: take the item at the head, advance
the head, and re-anchor the head on the tail when the queue has drained. -/
def Queue.pop (q : Queue T) : Option T × Queue T :=
  if q.is_empty then (none, q)
  else
    let first_pos := q.get_first_position
    let item := q.buffer first_pos
    let q1 : Queue T := { q with buffer := Function.update q.buffer first_pos none }
    let q2 : Queue T := { q1 with head := q1.get_next_first_position }
    let q3 : Queue T :=
      if q2.is_empty ∨ item.isNone ∨ (q2.buffer q2.head).isNone then
        { q2 with head := q2.tail }
      else q2
    (item, q3)

/-- `Queue::peek` from `src/queue.rs`. -/
def Queue.peek (q : Queue T) : Option T := q.buffer q.get_first_position

/-- `Queue::clear` from `src/queue.rs`. -/
def Queue.clear (q : Queue T) : Queue T :=
  { q with head := 0, tail := 0, buffer := fun _ => none }

/-- A client-visible queue operation, for stating invariants over
arbitrary operation sequences. -/
inductive QOp (T : Type)
  | push (item : T)
  | pop
  | peek
  | clear

/-- Run one queue operation; `pop` keeps the resulting state, `peek`
leaves the state unchanged (it takes `&self`). -/
def applyQOp (q : Queue T) : QOp T → Queue T
  | .push item => q.push item
  | .pop => (q.pop).2
  | .peek => q
  | .clear => q.clear

/-- Run a sequence of queue operations from left to right. -/
def runQOps (q : Queue T) (ops : List (QOp T)) : Queue T := ops.foldl applyQOp q

/-- Push a whole list of items in order. -/
def pushAll (q : Queue T) (items : List T) : Queue T := items.foldl Queue.push q

/-- The results of `n` successive pops. -/
def popsOf (q : Queue T) : Nat → List (Option T)
  | 0 => []
  | n + 1 =>
    match q.pop with
    | (r, q1) => r :: popsOf q1 n

/-- How many buffer slots of the backing array hold an item. -/
def storedCount (q : Queue T) : Nat :=
  ((List.range MAX_CAPACITY).filter fun i => (q.buffer i).isSome).length



/-- Decoding the wire payload produced by `to_send_message`, as the
specification's round-trip property composes them: encode, take the
`SendMessage` payload, decode it as coming from the same peer. -/
def decode_of_encode (a : CommAction) : CommAction :=
  match a.to_send_message with
  | .SendMessage node payload => CommAction.from_namespaced_msg node payload
  | _ => .Unknown

/-- The wire grammar accepted by the decoder: a `]]::` delimiter, a tag
parseable as an unsigned byte lying in 1..7, and per-variant body
conditions — a `;` for tags 2 and 3, at least three `;`-separated fields
for tag 4, and for tag 7 a `;` whose right part parses as an `i64` that
is a representable timestamp. -/
def grammarOk (raw : Str) : Prop :=
  ∃ pre body, splitOnce nsDelim raw = some (pre, body) ∧
    ∃ n, parseU8 pre = some n ∧ 1 ≤ n ∧ n ≤ 7 ∧
      ((n = 2 ∨ n = 3) → (splitOnce [';'] body).isSome = true) ∧
      (n = 4 → 3 ≤ (splitChar ';' body).length) ∧
      (n = 7 → ∃ name tsStr ts, splitOnce [';'] body = some (name, tsStr) ∧
        parseI64 tsStr = some ts ∧ (dateTimeFromTimestamp ts).isSome = true)

/-- Replace the sender field (the first component) of an action; the
identity on `Unknown`, which has no sender. -/
def withSender (id : Str) : CommAction → CommAction
  | .Unknown => .Unknown
  | .SendMessage _ m => .SendMessage id m
  | .TargetHasChanged _ n r => .TargetHasChanged id n r
  | .RequestTarget _ n r => .RequestTarget id n r
  | .DownloadTarget _ n r t => .DownloadTarget id n r t
  | .DownloadDone _ t => .DownloadDone id t
  | .RequestTargetTimestamp _ n => .RequestTargetTimestamp id n
  | .TargetTimestamp _ n ts => .TargetTimestamp id n ts

/-- Abstraction relation between a concrete `Queue` and the list of its
items in arrival order: the items sit in the buffer in a contiguous ring
segment starting at `head`, the tail points at the last of them (at the
head when there are none), and every other slot is free. -/
def QueueRepr (q : Queue T) (xs : List T) : Prop :=
  1 ≤ q.capacity ∧ q.capacity ≤ MAX_CAPACITY ∧ q.head < q.capacity ∧
  xs.length ≤ q.capacity ∧
  q.tail = (q.head + (xs.length - 1)) % q.capacity ∧
  ∀ i, q.buffer i =
    if i < q.capacity then xs[(i + q.capacity - q.head) % q.capacity]? else none

/-- The queue-state invariant asserted by the specification: cursors in
bounds, and an empty queue has coinciding cursors over a free slot. -/
def ClaimInv (q : Queue T) : Prop :=
  q.head < q.capacity ∧ q.tail < q.capacity ∧ q.capacity ≤ MAX_CAPACITY ∧
  (q.is_empty = true → q.head = q.tail ∧ q.buffer q.head = none) ∧
  ((∀ i, q.buffer i = none) → q.head = q.tail)

/-- The abstract effect of one push on the list of stored items: append,
evicting the oldest item when the list already fills the capacity. -/
def evictPush (cap : Nat) (xs : List T) (x : T) : List T :=
  if xs.length = cap then xs.drop 1 ++ [x] else xs ++ [x]

/-! Concrete values used by the closed counterexample and witness
theorems, taken from the specification's end-to-end scenarios. -/

/-- Node id `nodeA`. -/
def sNodeA : Str := "nodeA".data

/-- Node id `nodeB`. -/
def sNodeB : Str := "nodeB".data

/-- Node id `nodeC`. -/
def sNodeC : Str := "nodeC".data

/-- Node id `nodeZ`. -/
def sNodeZ : Str := "nodeZ".data

/-- Group name `docs`. -/
def sDocs : Str := "docs".data

/-- Relative path `x.txt`. -/
def sXtxt : Str := "x.txt".data

/-- Base path `/tmp/docs`. -/
def sTmpDocs : Str := "/tmp/docs".data

/-- Joined path `/tmp/docs/x.txt`. -/
def sTmpDocsX : Str := "/tmp/docs/x.txt".data

/-- Lock-marker path `/tmp/docs/x.txt.fsy.lock`. -/
def sLockPath : Str := "/tmp/docs/x.txt.fsy.lock".data

/-- Ticket `tk-1`. -/
def sTk1 : Str := "tk-1".data

/-- Node-directory name `A`. -/
def sA : Str := "A".data

/-- Node-directory name `C`. -/
def sC : Str := "C".data

/-- A push-side group `docs` at `/tmp/docs` pushed to node `C`
(scenario S4). -/
def gDocsPush : TargetGroup :=
  { name := sDocs, path := sTmpDocs, targets := [{ mode := .Push, node_name := sC }] }

/-- A pull-side group `docs` at `/tmp/docs` allowing only node `A`
(scenario S5). -/
def gDocsPull : TargetGroup :=
  { name := sDocs, path := sTmpDocs, targets := [{ mode := .Pull, node_name := sA }] }

/-- A node directory mapping name `A` to id `nodeA` (scenario S5). -/
def nodesA : List NodeData := [{ name := sA, id := sNodeA }]

/-- A raw payload with a `DownloadTarget` tag and four body fields. -/
def rawFourFields : Str := "4]]::a;b;c;d".data

/-- The wire form of `RequestTarget(docs, x.txt)` (scenario S3 shape). -/
def payloadRequestDocs : Str := "3]]::docs;x.txt".data

/-- The wire form of `DownloadTarget(docs, x.txt, tk-1)` (scenario S4
shape). -/
def payloadDownloadDocs : Str := "4]]::docs;x.txt;tk-1".data

/-- The wire payload actually produced by encoding
`TargetTimestamp(nodeB, docs, 1700000000)`: the timestamp is rendered in
chrono's human-readable `Display` form, not as decimal unix seconds. -/
def payloadTimestampDocs : Str := "7]]::docs;2023-11-14 22:13:20 UTC".data

/-! ### Basic lemmas about the embedded handlers and the codec -/

/-- C10 helper: a successful pull-group lookup returns a group bearing the
requested name. -/
theorem pull_group_name_eq {groups : List TargetGroup} {name : Str} {g : TargetGroup}
    (h : get_pull_group_with_name groups name = some g) : g.name = name := by
  unfold get_pull_group_with_name at h
  obtain ⟨item, _, hitem⟩ := List.exists_of_findSome?_eq_some h
  by_cases hc :
      ¬(item.targets.any fun t =>
          decide (t.mode = TargetMode.Pull ∨ t.mode = TargetMode.PushPull)) = true ∨
        item.name ≠ name
  · simp only [hc, if_true] at hitem
    exact absurd hitem (by simp)
  · simp only [hc, if_false] at hitem
    push_neg at hc
    obtain ⟨-, hname⟩ := hc
    obtain rfl := Option.some.inj hitem
    exact hname

/-- Sender independence of the decoder: decoding the same raw payload for
two senders yields the same action up to the sender field, which is
copied verbatim. -/
theorem c10_sender_independent (s₁ s₂ raw : Str) :
    CommAction.from_namespaced_msg s₁ raw =
      withSender s₁ (CommAction.from_namespaced_msg s₂ raw) := by
  unfold CommAction.from_namespaced_msg
  rcases hns : get_ns_split raw with ⟨module, body⟩
  cases module
  case Unknown => simp [withSender]
  case SendMessage => simp [withSender]
  case TargetHasChanged =>
    rcases h : splitOnce [';'] body with - | ⟨a, b⟩ <;> simp [h, withSender]
  case RequestTarget =>
    rcases h : splitOnce [';'] body with - | ⟨a, b⟩ <;> simp [h, withSender]
  case DownloadTarget =>
    rcases h : downloadTargetLoop (splitChar ';' body) 0 [] [] [] with ⟨count, tn, rp, ti⟩
    by_cases hc : count = 3 <;> simp [h, hc, withSender]
  case DownloadDone => simp [withSender]
  case RequestTargetTimestamp => simp [withSender]
  case TargetTimestamp =>
    rcases h : splitOnce [';'] body with - | ⟨a, b⟩
    · simp [h, withSender]
    · rcases h2 : parseI64 b with - | ts
      · simp [h, h2, withSender]
      · rcases h3 : dateTimeFromTimestamp ts with - | dt <;> simp [h, h2, h3, withSender]

/-- A `DownloadTarget` whose group is missing on the pull side, or whose
sender is not an authorized node id of that group, performs no transport
call (and the handler produces no follow-up actions by construction). -/
theorem c6_unauthorized_download_dropped (target_groups : List TargetGroup)
    (nodes : List NodeData) (sender target_name relative_path ticket_id : Str)
    (h : get_pull_group_with_name target_groups target_name = none ∨
      ∃ g, get_pull_group_with_name target_groups target_name = some g ∧
        group_has_node_id g nodes sender = false) :
    on_download_target target_groups nodes sender target_name relative_path ticket_id
      = [] := by
  unfold on_download_target
  rcases h with h | ⟨g, hg, hauth⟩
  · simp [h]
  · simp [hg, hauth]

/-- Scenario S5 instance of `c6_unauthorized_download_dropped`: the pull
group `docs` authorizes only `nodeA`; a `DownloadTarget` from `nodeZ` is
dropped without any effect. -/
theorem c6_witness :
    on_download_target [gDocsPull] nodesA sNodeZ sDocs sXtxt sTk1 = [] :=
  c6_unauthorized_download_dropped [gDocsPull] nodesA sNodeZ sDocs sXtxt sTk1
    (Or.inr ⟨gDocsPull, by decide, by decide⟩)

/-- Divergence of `on_request_target` from the claim (and from scenario
S4 of the specification): the group exists on the push side and exactly
one follow-up of the required shape is enqueued, but the ticket is
published for the group path `/tmp/docs` itself rather than for the
joined path `/tmp/docs/x.txt`. -/
theorem c3_code_divergence :
    (on_request_target (fun _ => sTk1) [gDocsPush] sNodeC sDocs sXtxt).1 =
      [Effect.publishTicket sTmpDocs] ∧
    sTmpDocs ≠ pathJoin sTmpDocs sXtxt ∧
    pathJoin sTmpDocs sXtxt = sTmpDocsX ∧
    (on_request_target (fun _ => sTk1) [gDocsPush] sNodeC sDocs sXtxt).2 =
      [CommAction.SendMessage sNodeC payloadDownloadDocs] := by
  decide

/-- What `on_target_has_changed` actually does: one `RequestTarget`
follow-up is emitted exactly when a pull-side group of that name exists,
for any sender whatsoever — the handler performs no authorization
check. -/
theorem c4_amended (target_groups : List TargetGroup)
    (sender target_name relative_path : Str) :
    (∀ g, get_pull_group_with_name target_groups target_name = some g →
        on_target_has_changed target_groups sender target_name relative_path =
          [(CommAction.RequestTarget sender target_name relative_path).to_send_message]) ∧
    (get_pull_group_with_name target_groups target_name = none →
        on_target_has_changed target_groups sender target_name relative_path = []) := by
  constructor
  · intro g hg
    unfold on_target_has_changed
    rw [hg]
    simp only [pull_group_name_eq hg]
  · intro h
    unfold on_target_has_changed
    rw [h]

/-- The claim fails on the code: `nodeZ` is not an authorized node id of
the pull group `docs`, yet its `TargetHasChanged` still triggers the
`RequestTarget` follow-up. -/
theorem c4_counterexample :
    group_has_node_id gDocsPull nodesA sNodeZ = false ∧
    on_target_has_changed [gDocsPull] sNodeZ sDocs sXtxt =
      [CommAction.SendMessage sNodeZ payloadRequestDocs] := by
  decide

/-- Concrete instance of `c4_amended`: with the pull group present, the
follow-up is emitted (here for the unauthorized sender `nodeZ`), and with
no groups at all nothing is emitted. -/
theorem c4_witness :
    on_target_has_changed [gDocsPull] sNodeZ sDocs sXtxt =
      [(CommAction.RequestTarget sNodeZ sDocs sXtxt).to_send_message] ∧
    on_target_has_changed [] sNodeZ sDocs sXtxt = [] :=
  ⟨(c4_amended [gDocsPull] sNodeZ sDocs sXtxt).1 gDocsPull (by decide),
    (c4_amended [] sNodeZ sDocs sXtxt).2 (by decide)⟩

/-- What the handler actually does on an authorized `DownloadTarget`: it
invokes exactly the transport download of the ticket to the joined
destination path, and touches no marker file — the lock-marker mechanism
of the specification is absent from the code. -/
theorem c5_amended (target_groups : List TargetGroup) (nodes : List NodeData)
    (sender target_name relative_path ticket_id : Str) (g : TargetGroup)
    (h1 : get_pull_group_with_name target_groups target_name = some g)
    (h2 : group_has_node_id g nodes sender = true) :
    on_download_target target_groups nodes sender target_name relative_path ticket_id
        = [Effect.download ticket_id (pathJoin g.path relative_path)] ∧
    (∀ p, Effect.createFile p ∉
        on_download_target target_groups nodes sender target_name relative_path
          ticket_id) ∧
    (∀ p, Effect.removeFile p ∉
        on_download_target target_groups nodes sender target_name relative_path
          ticket_id) := by
  have heq :
      on_download_target target_groups nodes sender target_name relative_path ticket_id
        = [Effect.download ticket_id (pathJoin g.path relative_path)] := by
    unfold on_download_target
    rw [h1]
    simp [h2, Connection.download_ticket_to_path]
  refine ⟨heq, ?_, ?_⟩ <;> intro p <;> rw [heq] <;> simp

/-- The claim fails on the code: on the authorized scenario the effect
trace is the bare download, with no creation of the lock-marker file
`/tmp/docs/x.txt.fsy.lock` before it and no removal after it. -/
theorem c5_counterexample :
    on_download_target [gDocsPull] nodesA sNodeA sDocs sXtxt sTk1 =
      [Effect.download sTk1 sTmpDocsX] ∧
    Effect.createFile sLockPath ∉
      on_download_target [gDocsPull] nodesA sNodeA sDocs sXtxt sTk1 ∧
    Effect.removeFile sLockPath ∉
      on_download_target [gDocsPull] nodesA sNodeA sDocs sXtxt sTk1 := by
  decide

/-- Concrete instance of `c5_amended` on the authorized scenario. -/
theorem c5_witness :
    on_download_target [gDocsPull] nodesA sNodeA sDocs sXtxt sTk1 =
      [Effect.download sTk1 (pathJoin gDocsPull.path sXtxt)] ∧
    (∀ p, Effect.createFile p ∉
        on_download_target [gDocsPull] nodesA sNodeA sDocs sXtxt sTk1) ∧
    (∀ p, Effect.removeFile p ∉
        on_download_target [gDocsPull] nodesA sNodeA sDocs sXtxt sTk1) :=
  c5_amended [gDocsPull] nodesA sNodeA sDocs sXtxt sTk1 gDocsPull
    (by decide) (by decide)

/-- A pattern that is a prefix of a string is contained in it. -/
theorem strContains_of_isPrefixOf {s pat : Str} (h : pat.isPrefixOf s = true) :
    strContains s pat = true := by
  cases s with
  | nil =>
    cases pat with
    | nil => rfl
    | cons c cs => simp [List.isPrefixOf] at h
  | cons c rest => simp [strContains, h]

/-- Scanning a string that nowhere contains the pattern replaces
nothing. -/
theorem replaceAllFuel_of_not_contains {pat : Str} :
    ∀ fuel s, strContains s pat = false → s.length ≤ fuel →
      replaceAllFuel pat [] fuel s = s := by
  intro fuel
  induction fuel with
  | zero =>
    intro s hcon hlen
    cases s with
    | nil => rfl
    | cons c rest => simp at hlen
  | succ n ih =>
    intro s hcon hlen
    cases s with
    | nil => rfl
    | cons c rest =>
      simp only [strContains, Bool.or_eq_false_iff] at hcon
      obtain ⟨hpre, hrest⟩ := hcon
      simp only [replaceAllFuel, hpre, and_false, ne_eq, Bool.false_eq_true, if_false]
      rw [ih rest hrest (by simp only [List.length_cons] at hlen; omega)]

/-- Removing a non-empty pattern from a string that starts with it and
contains it nowhere else yields exactly the remaining suffix. -/
theorem replaceAll_prefix_once {pat p : Str} (hne : pat ≠ [])
    (hpre : pat.isPrefixOf p = true)
    (hrest : strContains (p.drop pat.length) pat = false) :
    replaceAll pat [] p = p.drop pat.length := by
  obtain ⟨rest, rfl⟩ := List.isPrefixOf_iff_prefix.mp hpre
  rw [List.drop_left] at hrest ⊢
  cases pat with
  | nil => exact absurd rfl hne
  | cons pc ptail =>
    show replaceAllFuel (pc :: ptail) [] ((pc :: ptail) ++ rest).length
        ((pc :: ptail) ++ rest) = rest
    rw [List.cons_append, List.length_cons]
    simp only [replaceAllFuel, List.isPrefixOf_iff_prefix, hne, true_and,
      ← List.cons_append, List.prefix_append, if_true, List.nil_append]
    rw [List.length_cons, Nat.add_sub_cancel, List.drop_append_of_le_length (by simp),
      List.drop_length, List.nil_append]
    exact replaceAllFuel_of_not_contains _ rest hrest (by simp)

/-- Evaluation of the watcher's matching against a single registered base
path, by cases on the conditions the code tests. -/
theorem get_push_single (b p : Str) :
    get_push_targets_with_file [b] p =
      if strContains p b = false then []
      else if b = p then [{ base_path := b, relative_path := [] }]
      else [{ base_path := b, relative_path := replaceAll b [] p }] := by
  cases hcon : strContains p b with
  | false => simp [get_push_targets_with_file, List.filterMap, hcon]
  | true =>
    by_cases heq : b = p
    · subst heq
      simp [get_push_targets_with_file, List.filterMap, hcon]
    · simp [get_push_targets_with_file, List.filterMap, hcon, heq]

/-- What the watcher's matching actually does for a registered base path
`b` and changed path `p`: a `ChangedTarget` is produced exactly when `b`
occurs in `p` as a substring; the relative path is empty when `p = b`,
and otherwise, when `b` is a prefix of `p` occurring nowhere later, it is
the suffix of `p` after `b`. -/
theorem c8_amended (p b : Str) (hb : b ≠ []) :
    (get_push_targets_with_file [b] p = [] ↔ strContains p b = false) ∧
    (p = b → get_push_targets_with_file [b] p =
        [{ base_path := b, relative_path := [] }]) ∧
    (b.isPrefixOf p = true → strContains (p.drop b.length) b = false → p ≠ b →
        get_push_targets_with_file [b] p =
          [{ base_path := b, relative_path := p.drop b.length }]) := by
  refine ⟨?_, ?_, ?_⟩
  · rw [get_push_single]
    cases h : strContains p b with
    | false => simp
    | true =>
      constructor
      · intro hcontra
        exfalso
        rw [if_neg (by simp)] at hcontra
        by_cases heq : b = p
        · rw [if_pos heq] at hcontra
          exact List.cons_ne_nil _ _ hcontra
        · rw [if_neg heq] at hcontra
          exact List.cons_ne_nil _ _ hcontra
      · intro hcontra
        exact absurd hcontra (by simp)
  · rintro rfl
    have hcon : strContains p p = true :=
      strContains_of_isPrefixOf (by simp [List.isPrefixOf_iff_prefix])
    rw [get_push_single]
    simp [hcon]
  · intro hpre hrest hne
    have hcon : strContains p b = true := strContains_of_isPrefixOf hpre
    have hne' : b ≠ p := fun h => hne h.symm
    rw [get_push_single]
    simp [hcon, hne', replaceAll_prefix_once hb hpre hrest]

/-- The claim fails on the code in both directions: for base path `b` and
changed path `abc` a `ChangedTarget` is produced although `b` is not a
path prefix of `abc` (with the inner occurrence deleted from the relative
path), and for base path `/a` and changed path `/a/a` the relative path
is empty instead of the suffix `/a`, because `replace` removes every
occurrence. -/
theorem c8_counterexample :
    get_push_targets_with_file [['b']] ['a', 'b', 'c'] =
      [{ base_path := ['b'], relative_path := ['a', 'c'] }] ∧
    (['b'] : Str).isPrefixOf ['a', 'b', 'c'] = false ∧
    (['a', 'b', 'c'] : Str) ≠ ['b'] ∧
    get_push_targets_with_file [['/', 'a']] ['/', 'a', '/', 'a'] =
      [{ base_path := ['/', 'a'], relative_path := [] }] ∧
    (['/', 'a'] : Str).isPrefixOf ['/', 'a', '/', 'a'] = true ∧
    (['/', 'a', '/', 'a'] : Str).drop 2 = ['/', 'a'] := by
  decide

/-- Concrete instance of `c8_amended` on the scenario S4 paths: the
changed file `/tmp/docs/x.txt` under base `/tmp/docs` yields the suffix
`/x.txt`. -/
theorem c8_witness :
    get_push_targets_with_file [sTmpDocs] sTmpDocsX =
      [{ base_path := sTmpDocs, relative_path := sTmpDocsX.drop sTmpDocs.length }] :=
  (c8_amended sTmpDocsX sTmpDocs (by decide)).2.2 (by decide) (by decide) (by decide)

/-! ### Lemmas for the codec round trip -/

/-- Splitting at the first `;` of a string whose left part is
semicolon-free recovers the two parts. -/
theorem splitOnce_semi (a b : Str) (ha : ';' ∉ a) :
    splitOnce [';'] (a ++ ';' :: b) = some (a, b) := by
  induction a with
  | nil => simp [splitOnce, List.isPrefixOf]
  | cons c cs ih =>
    have hc : c ≠ ';' := fun h => ha (h ▸ List.mem_cons_self c cs)
    have hcs : ';' ∉ cs := fun h => ha (List.mem_cons_of_mem c h)
    have hbeq : ((';' : Char) == c) = false := beq_eq_false_iff_ne.mpr (Ne.symm hc)
    simp [splitOnce, List.isPrefixOf, hbeq, ih hcs]

/-- The field split never produces an empty list of fields. -/
theorem splitChar_ne_nil (sep : Char) (s : Str) : splitChar sep s ≠ [] := by
  cases s with
  | nil => simp [splitChar]
  | cons c rest =>
    cases h : splitChar sep rest <;> simp [splitChar, h] <;> split <;> simp

/-- A semicolon-free string is one single field. -/
theorem splitChar_no_semi (a : Str) (ha : ';' ∉ a) : splitChar ';' a = [a] := by
  induction a with
  | nil => rfl
  | cons c cs ih =>
    have hc : c ≠ ';' := fun h => ha (h ▸ List.mem_cons_self c cs)
    have hcs : ';' ∉ cs := fun h => ha (List.mem_cons_of_mem c h)
    simp [splitChar, ih hcs, hc]

/-- Splitting fields of a string beginning with a semicolon-free field
peels that field off. -/
theorem splitChar_append (a rest : Str) (ha : ';' ∉ a) :
    splitChar ';' (a ++ ';' :: rest) = a :: splitChar ';' rest := by
  induction a with
  | nil =>
    cases hr : splitChar ';' rest with
    | nil => exact absurd hr (splitChar_ne_nil ';' rest)
    | cons h t => simp [splitChar, hr]
  | cons c cs ih =>
    have hc : c ≠ ';' := fun h => ha (h ▸ List.mem_cons_self c cs)
    have hcs : ';' ∉ cs := fun h => ha (List.mem_cons_of_mem c h)
    simp [splitChar, ih hcs, hc]

/-- Membership in the tail of a string assembled around a later part. -/
theorem mem_drop_one_append (A B : Str) (x c : Char) (hc : c ∈ B) :
    c ∈ (A ++ x :: B).drop 1 := by
  cases A with
  | nil => simpa using hc
  | cons a as => simp [List.mem_append, hc]

/-- The rendered form of a timestamp always has a space beyond its first
character (the one before the time of day). -/
theorem space_mem_display_drop (dt : DateTimeUtc) :
    ' ' ∈ (displayDateTime dt).drop 1 := by
  unfold displayDateTime
  rcases civilFromDays (Int.fdiv dt.secs 86400) with ⟨y, m, d⟩
  exact mem_drop_one_append _ _ _ _ (by simp)

/-- A string containing a non-digit character is not a digit run. -/
theorem parseDigits_none_of_mem {s : Str} {c : Char} (hc : c ∈ s)
    (hd : c.isDigit = false) : parseDigits s = none := by
  have hne : s ≠ [] := by rintro rfl; simp at hc
  have hall : ¬(s.all Char.isDigit = true) := fun hall => by
    have := List.all_eq_true.mp hall c hc
    rw [hd] at this
    exact Bool.false_ne_true this
  simp [parseDigits, hne, hall]

/-- A string with a space beyond its first character never parses as an
`i64`. -/
theorem parseI64_none_of_space {s : Str} (h : ' ' ∈ s.drop 1) :
    parseI64 s = none := by
  cases s with
  | nil => simp at h
  | cons c rest =>
    rw [List.drop_succ_cons, List.drop_zero] at h
    have hrest : parseDigits rest = none := parseDigits_none_of_mem h rfl
    have hall : parseDigits (c :: rest) = none :=
      parseDigits_none_of_mem (List.mem_cons_of_mem c h) rfl
    unfold parseI64
    split
    · next r heq =>
      injection heq with h1 h2
      subst h2
      rw [hrest]
    · next r heq =>
      injection heq with h1 h2
      subst h2
      rw [hrest]
    · rw [hall]

/-- Encoding prefixes the body with the namespace digit and the
delimiter, and the namespace split recovers exactly these. -/
theorem get_ns_split_template (ns : ActionNamespace) (body : Str) :
    get_ns_split (template_msg_with_ns ns body) = (ns, body) := by
  have h0 : ActionNamespace.ofString ['0'] = .Unknown := by decide
  have h1 : ActionNamespace.ofString ['1'] = .SendMessage := by decide
  have h2 : ActionNamespace.ofString ['2'] = .TargetHasChanged := by decide
  have h3 : ActionNamespace.ofString ['3'] = .RequestTarget := by decide
  have h4 : ActionNamespace.ofString ['4'] = .DownloadTarget := by decide
  have h5 : ActionNamespace.ofString ['5'] = .DownloadDone := by decide
  have h6 : ActionNamespace.ofString ['6'] = .RequestTargetTimestamp := by decide
  have h7 : ActionNamespace.ofString ['7'] = .TargetTimestamp := by decide
  cases ns <;>
    simp [get_ns_split, template_msg_with_ns, nsChar, ActionNamespace.to_u8,
      splitOnce, nsDelim, List.isPrefixOf, h0, h1, h2, h3, h4, h5, h6, h7]

/-- The round trip that actually holds on the code: encode-then-decode is
the identity for `TargetHasChanged`, `RequestTarget` and `DownloadTarget`
whose multi-field bodies contain no `;` inside a field, unconditionally
for `DownloadDone` and `RequestTargetTimestamp`, while a `TargetTimestamp`
always decodes to `Unknown`, because the encoder renders the timestamp in
chrono's `Display` form where the decoder expects decimal unix seconds. -/
theorem c1_amended (id name rel tk dd rq : Str) (dt : DateTimeUtc)
    (hname : ';' ∉ name) (hrel : ';' ∉ rel) (htk : ';' ∉ tk) :
    decode_of_encode (.TargetHasChanged id name rel) =
      CommAction.TargetHasChanged id name rel ∧
    decode_of_encode (.RequestTarget id name rel) =
      CommAction.RequestTarget id name rel ∧
    decode_of_encode (.DownloadTarget id name rel tk) =
      CommAction.DownloadTarget id name rel tk ∧
    decode_of_encode (.DownloadDone id dd) = CommAction.DownloadDone id dd ∧
    decode_of_encode (.RequestTargetTimestamp id rq) =
      CommAction.RequestTargetTimestamp id rq ∧
    decode_of_encode (.TargetTimestamp id name dt) = CommAction.Unknown := by
  refine ⟨?_, ?_, ?_, ?_, ?_, ?_⟩
  · simp [decode_of_encode, CommAction.to_send_message, CommAction.from_namespaced_msg,
      get_ns_split_template, splitOnce_semi _ _ hname]
  · simp [decode_of_encode, CommAction.to_send_message, CommAction.from_namespaced_msg,
      get_ns_split_template, splitOnce_semi _ _ hname]
  · simp [decode_of_encode, CommAction.to_send_message, CommAction.from_namespaced_msg,
      get_ns_split_template, splitChar_append _ _ hname, splitChar_append _ _ hrel,
      splitChar_no_semi _ htk, downloadTargetLoop]
  · simp [decode_of_encode, CommAction.to_send_message, CommAction.from_namespaced_msg,
      get_ns_split_template]
  · simp [decode_of_encode, CommAction.to_send_message, CommAction.from_namespaced_msg,
      get_ns_split_template]
  · simp [decode_of_encode, CommAction.to_send_message, CommAction.from_namespaced_msg,
      get_ns_split_template, splitOnce_semi _ _ hname,
      parseI64_none_of_space (space_mem_display_drop dt)]

/-- The claim fails on the code: a `TargetTimestamp` never decodes back
(its payload carries `2023-11-14 22:13:20 UTC`, not `1700000000`), and a
group name containing `;` shifts the fields of a `TargetHasChanged`. -/
theorem c1_counterexample :
    decode_of_encode (CommAction.TargetTimestamp sNodeB sDocs ⟨1700000000⟩) =
      CommAction.Unknown ∧
    (CommAction.TargetTimestamp sNodeB sDocs ⟨1700000000⟩).to_send_message =
      CommAction.SendMessage sNodeB payloadTimestampDocs ∧
    decode_of_encode (CommAction.TargetHasChanged ['n'] ['a', ';', 'b'] ['c']) =
      CommAction.TargetHasChanged ['n'] ['a'] ['b', ';', 'c'] ∧
    CommAction.TargetHasChanged ['n'] ['a'] ['b', ';', 'c'] ≠
      CommAction.TargetHasChanged ['n'] ['a', ';', 'b'] ['c'] := by
  decide

/-- Concrete instance of `c1_amended` on scenario values. -/
theorem c1_witness :
    (';' ∉ sDocs) ∧ (';' ∉ sXtxt) ∧ (';' ∉ sTk1) ∧
    (decode_of_encode (.TargetHasChanged sNodeA sDocs sXtxt) =
        CommAction.TargetHasChanged sNodeA sDocs sXtxt ∧
      decode_of_encode (.RequestTarget sNodeA sDocs sXtxt) =
        CommAction.RequestTarget sNodeA sDocs sXtxt ∧
      decode_of_encode (.DownloadTarget sNodeA sDocs sXtxt sTk1) =
        CommAction.DownloadTarget sNodeA sDocs sXtxt sTk1 ∧
      decode_of_encode (.DownloadDone sNodeA sTk1) =
        CommAction.DownloadDone sNodeA sTk1 ∧
      decode_of_encode (.RequestTargetTimestamp sNodeA sDocs) =
        CommAction.RequestTargetTimestamp sNodeA sDocs ∧
      decode_of_encode (.TargetTimestamp sNodeA sDocs ⟨0⟩) = CommAction.Unknown) :=
  ⟨by decide, by decide, by decide,
    c1_amended sNodeA sDocs sXtxt sTk1 sTk1 sDocs ⟨0⟩
      (by decide) (by decide) (by decide)⟩

/-- The `DownloadTarget` field loop counts fields only up to three: its
final counter is the number of fields capped at 3, so four or more
fields pass the `count != 3` test exactly like three. -/
theorem downloadTargetLoop_count (spl : List Str) :
    (downloadTargetLoop spl 0 [] [] []).1 = min spl.length 3 := by
  rcases spl with - | ⟨a, - | ⟨b, - | ⟨c, rest⟩⟩⟩
  · rfl
  · rfl
  · rfl
  · have h : (downloadTargetLoop (a :: b :: c :: rest) 0 [] [] []).1 = 3 := by
      cases rest <;> rfl
    rw [h]
    simp [List.length_cons]

/-- The decoder's `Unknown` states characterized: `Unknown` is returned
exactly on violations of the accepted grammar, where the `DownloadTarget`
arity condition is `at least three` fields (not `exactly three`). -/
theorem c2_amended (node raw : Str) :
    CommAction.from_namespaced_msg node raw = CommAction.Unknown ↔ ¬grammarOk raw := by
  rcases hsplit : splitOnce nsDelim raw with - | ⟨pre, body⟩
  · have hdec : CommAction.from_namespaced_msg node raw = CommAction.Unknown := by
      unfold CommAction.from_namespaced_msg
      simp [get_ns_split, hsplit]
    have hgr : ¬grammarOk raw := by
      rintro ⟨pre', body', hs, -⟩
      rw [hsplit] at hs
      exact Option.noConfusion hs
    simp [hdec, hgr]
  · have hgram : grammarOk raw ↔
        ∃ n, parseU8 pre = some n ∧ 1 ≤ n ∧ n ≤ 7 ∧
          ((n = 2 ∨ n = 3) → (splitOnce [';'] body).isSome = true) ∧
          (n = 4 → 3 ≤ (splitChar ';' body).length) ∧
          (n = 7 → ∃ nm tsStr ts, splitOnce [';'] body = some (nm, tsStr) ∧
            parseI64 tsStr = some ts ∧ (dateTimeFromTimestamp ts).isSome = true) := by
      unfold grammarOk
      constructor
      · rintro ⟨pre', body', hs, hrest⟩
        rw [hsplit] at hs
        have h := Option.some.inj hs
        rw [Prod.mk.injEq] at h
        obtain ⟨rfl, rfl⟩ := h
        exact hrest
      · rintro ⟨n, hn⟩
        exact ⟨pre, body, hsplit, n, hn⟩
    rw [hgram]
    rcases hp : parseU8 pre with - | n
    · have hns : ActionNamespace.ofString pre = ActionNamespace.Unknown := by
        unfold ActionNamespace.ofString
        rw [hp]
      have hdec : CommAction.from_namespaced_msg node raw = CommAction.Unknown := by
        unfold CommAction.from_namespaced_msg
        simp [get_ns_split, hsplit, hns]
      simp [hdec, hp]
    · rcases n with - | - | - | - | - | - | - | - | m
      · have hns : ActionNamespace.ofString pre = ActionNamespace.Unknown := by
          unfold ActionNamespace.ofString
          rw [hp]
        have hdec : CommAction.from_namespaced_msg node raw = CommAction.Unknown := by
          unfold CommAction.from_namespaced_msg
          simp [get_ns_split, hsplit, hns]
        simp [hdec, hp]
      · have hns : ActionNamespace.ofString pre = ActionNamespace.SendMessage := by
          unfold ActionNamespace.ofString
          rw [hp]
        have hdec : CommAction.from_namespaced_msg node raw =
            CommAction.SendMessage node body := by
          unfold CommAction.from_namespaced_msg
          simp [get_ns_split, hsplit, hns]
        simp [hdec, hp]
      · have hns : ActionNamespace.ofString pre = ActionNamespace.TargetHasChanged := by
          unfold ActionNamespace.ofString
          rw [hp]
        rcases hb : splitOnce [';'] body with - | ⟨a, b⟩
        · have hdec : CommAction.from_namespaced_msg node raw = CommAction.Unknown := by
            unfold CommAction.from_namespaced_msg
            simp [get_ns_split, hsplit, hns, hb]
          simp [hdec, hp, hb]
        · have hdec : CommAction.from_namespaced_msg node raw =
              CommAction.TargetHasChanged node a b := by
            unfold CommAction.from_namespaced_msg
            simp [get_ns_split, hsplit, hns, hb]
          simp [hdec, hp, hb]
      · have hns : ActionNamespace.ofString pre = ActionNamespace.RequestTarget := by
          unfold ActionNamespace.ofString
          rw [hp]
        rcases hb : splitOnce [';'] body with - | ⟨a, b⟩
        · have hdec : CommAction.from_namespaced_msg node raw = CommAction.Unknown := by
            unfold CommAction.from_namespaced_msg
            simp [get_ns_split, hsplit, hns, hb]
          simp [hdec, hp, hb]
        · have hdec : CommAction.from_namespaced_msg node raw =
              CommAction.RequestTarget node a b := by
            unfold CommAction.from_namespaced_msg
            simp [get_ns_split, hsplit, hns, hb]
          simp [hdec, hp, hb]
      · have hns : ActionNamespace.ofString pre = ActionNamespace.DownloadTarget := by
          unfold ActionNamespace.ofString
          rw [hp]
        rcases hl : downloadTargetLoop (splitChar ';' body) 0 [] [] []
          with ⟨count, tn, rp, ti⟩
        have hcount : count = min (splitChar ';' body).length 3 := by
          have h := downloadTargetLoop_count (splitChar ';' body)
          rw [hl] at h
          exact h
        by_cases hlen : 3 ≤ (splitChar ';' body).length
        · have hc3 : count = 3 := by omega
          have hdec : CommAction.from_namespaced_msg node raw =
              CommAction.DownloadTarget node tn rp ti := by
            unfold CommAction.from_namespaced_msg
            simp [get_ns_split, hsplit, hns, hl, hc3]
          simp [hdec, hp, hlen]
        · have hc3 : count ≠ 3 := by omega
          have hdec : CommAction.from_namespaced_msg node raw = CommAction.Unknown := by
            unfold CommAction.from_namespaced_msg
            simp [get_ns_split, hsplit, hns, hl, hc3]
          simp [hdec, hp, hlen]
      · have hns : ActionNamespace.ofString pre = ActionNamespace.DownloadDone := by
          unfold ActionNamespace.ofString
          rw [hp]
        have hdec : CommAction.from_namespaced_msg node raw =
            CommAction.DownloadDone node body := by
          unfold CommAction.from_namespaced_msg
          simp [get_ns_split, hsplit, hns]
        simp [hdec, hp]
      · have hns : ActionNamespace.ofString pre =
            ActionNamespace.RequestTargetTimestamp := by
          unfold ActionNamespace.ofString
          rw [hp]
        have hdec : CommAction.from_namespaced_msg node raw =
            CommAction.RequestTargetTimestamp node body := by
          unfold CommAction.from_namespaced_msg
          simp [get_ns_split, hsplit, hns]
        simp [hdec, hp]
      · have hns : ActionNamespace.ofString pre = ActionNamespace.TargetTimestamp := by
          unfold ActionNamespace.ofString
          rw [hp]
        rcases hb : splitOnce [';'] body with - | ⟨a, b⟩
        · have hdec : CommAction.from_namespaced_msg node raw = CommAction.Unknown := by
            unfold CommAction.from_namespaced_msg
            simp [get_ns_split, hsplit, hns, hb]
          simp [hdec, hp, hb]
        · rcases hts : parseI64 b with - | ts
          · have hdec : CommAction.from_namespaced_msg node raw =
                CommAction.Unknown := by
              unfold CommAction.from_namespaced_msg
              simp [get_ns_split, hsplit, hns, hb, hts]
            simp [hdec, hp, hb, hts]
          · rcases hdt : dateTimeFromTimestamp ts with - | dt
            · have hdec : CommAction.from_namespaced_msg node raw =
                  CommAction.Unknown := by
                unfold CommAction.from_namespaced_msg
                simp [get_ns_split, hsplit, hns, hb, hts, hdt]
              simp [hdec, hp, hb, hts, hdt]
            · have hdec : CommAction.from_namespaced_msg node raw =
                  CommAction.TargetTimestamp node a dt := by
                unfold CommAction.from_namespaced_msg
                simp [get_ns_split, hsplit, hns, hb, hts, hdt]
              simp [hdec, hp, hb, hts, hdt]
      · have hns : ActionNamespace.ofString pre = ActionNamespace.Unknown := by
          unfold ActionNamespace.ofString
          rw [hp]
          split <;>
            first
              | rfl
              | (rename_i heq
                 rw [Option.some.injEq] at heq
                 omega)
        have hdec : CommAction.from_namespaced_msg node raw = CommAction.Unknown := by
          unfold CommAction.from_namespaced_msg
          simp [get_ns_split, hsplit, hns]
        simp [hdec, hp]

/-- The claim fails on the code: a `DownloadTarget` body with four fields
(`a;b;c;d`) is not `Unknown` — the decoder accepts it and silently drops
the fourth field. -/
theorem c2_counterexample :
    CommAction.from_namespaced_msg ['n'] rawFourFields =
      CommAction.DownloadTarget ['n'] ['a'] ['b'] ['c'] ∧
    CommAction.from_namespaced_msg ['n'] rawFourFields ≠ CommAction.Unknown ∧
    (splitChar ';' (rawFourFields.drop 5)).length = 4 := by
  decide

/-! ### The ring-buffer queue: representation lemmas -/

/-- The cursor-wrapping conditional is reduction modulo the capacity. -/
theorem wrapAt_eq_mod {cap p : Nat} (_hcap : 0 < cap) (hp : p ≤ cap) :
    (if cap ≤ p then 0 else p) = p % cap := by
  by_cases h : cap ≤ p
  · have hpe : p = cap := by omega
    simp [h, hpe]
  · have hm : p % cap = p := Nat.mod_eq_of_lt (by omega)
    simp [h, hm]

/-- Buffer-index arithmetic: the logical position of the physical slot of
logical position `m` is `m` itself (mod capacity). -/
theorem idx_roundtrip {cap hd : Nat} (m : Nat) (hh : hd < cap) :
    ((hd + m) % cap + cap - hd) % cap = m % cap := by
  have h1 : (hd + m) % cap + cap - hd = (hd + m) % cap + (cap - hd) := by omega
  rw [h1, Nat.mod_add_mod]
  have h2 : hd + m + (cap - hd) = m + cap := by omega
  rw [h2, Nat.add_mod_right]

/-- Buffer-index arithmetic: the physical slot of the logical position of
a physical slot is that slot. -/
theorem pos_roundtrip {cap hd : Nat} (i : Nat) (hh : hd < cap) (hi : i < cap) :
    (hd + (i + cap - hd) % cap) % cap = i := by
  rw [Nat.add_mod_mod]
  have h2 : hd + (i + cap - hd) = i + cap := by omega
  rw [h2, Nat.add_mod_right, Nat.mod_eq_of_lt hi]

/-- Characterization of logical positions: slot `i` has logical position
`k` exactly when `i` is the physical slot of `k`. -/
theorem idx_eq_iff {cap hd i k : Nat} (hh : hd < cap) (hi : i < cap) (hk : k < cap) :
    (i + cap - hd) % cap = k ↔ i = (hd + k) % cap := by
  constructor
  · rintro rfl
    exact (pos_roundtrip i hh hi).symm
  · rintro rfl
    rw [idx_roundtrip k hh, Nat.mod_eq_of_lt hk]

/-- The next write position of a queue whose tail slot is free is the
tail itself. -/
theorem gnp_of_none {T : Type} (q : Queue T) (h : q.buffer q.tail = none) :
    q.get_next_position = q.tail := by
  unfold Queue.get_next_position Queue.get_curr_position
  rw [if_pos (by simp [h])]

/-- The next write position of a queue whose tail slot is occupied is the
slot after the tail, modulo the capacity. -/
theorem gnp_of_some {T : Type} (q : Queue T) (v : T) (h : q.buffer q.tail = some v)
    (htl : q.tail < q.capacity) : q.get_next_position = (q.tail + 1) % q.capacity := by
  unfold Queue.get_next_position Queue.get_curr_position
  rw [if_neg (by simp [h])]
  exact wrapAt_eq_mod (by omega) (by omega)

/-- `push` never changes the capacity. -/
theorem push_capacity {T : Type} (q : Queue T) (x : T) :
    (q.push x).capacity = q.capacity := by
  unfold Queue.push
  dsimp only
  split
  · rfl
  · split <;> rfl

/-- `push` moves the tail to the next write position. -/
theorem push_tail {T : Type} (q : Queue T) (x : T) (hcap : q.capacity ≠ 0) :
    (q.push x).tail = q.get_next_position := by
  unfold Queue.push
  rw [if_neg hcap]
  dsimp only
  split <;> rfl

/-- `push` writes the item at the next write position. -/
theorem push_buffer {T : Type} (q : Queue T) (x : T) (hcap : q.capacity ≠ 0) :
    (q.push x).buffer = Function.update q.buffer q.get_next_position (some x) := by
  unfold Queue.push
  rw [if_neg hcap]
  dsimp only
  split <;> rfl

/-- The head after a `push`: it chases the tail exactly when the slot
after the new tail is occupied. -/
theorem push_head_iff {T : Type} (q : Queue T) (x : T) (hcap : q.capacity ≠ 0) :
    (q.push x).head =
      if (Function.update q.buffer q.get_next_position (some x)
            (if q.get_next_position + 1 ≥ q.capacity then 0
             else q.get_next_position + 1)).isSome = true
      then (if q.get_next_position + 1 ≥ q.capacity then 0 else q.get_next_position + 1)
      else q.head := by
  unfold Queue.push Queue.has_wrapped
  rw [if_neg hcap]
  dsimp only
  have hq2 : Queue.get_next_position
      (⟨q.capacity, q.head, q.get_next_position,
        Function.update q.buffer q.get_next_position (some x)⟩ : Queue T) =
      (if q.get_next_position + 1 ≥ q.capacity then 0
       else q.get_next_position + 1) := by
    unfold Queue.get_next_position Queue.get_curr_position
    dsimp only
    rw [if_neg (by simp [Function.update_same])]
  split
  · rename_i hw
    try dsimp only at hw
    rw [hq2] at hw
    dsimp only
    rw [hq2, if_pos hw]
  · rename_i hw
    try dsimp only at hw
    rw [hq2] at hw
    rw [if_neg hw]

/-- The popped item is the head slot of a non-empty queue. -/
theorem pop_fst {T : Type} (q : Queue T) :
    (q.pop).1 = if q.is_empty = true then none else q.buffer q.head := by
  unfold Queue.pop Queue.get_first_position
  dsimp only
  split <;> rfl

/-- `pop` never changes the capacity. -/
theorem pop_snd_capacity {T : Type} (q : Queue T) :
    (q.pop).2.capacity = q.capacity := by
  unfold Queue.pop
  dsimp only
  split
  · rfl
  · split <;> rfl

/-- `pop` never changes the tail. -/
theorem pop_snd_tail {T : Type} (q : Queue T) : (q.pop).2.tail = q.tail := by
  unfold Queue.pop
  dsimp only
  split
  · rfl
  · split <;> rfl

/-- `pop` on a non-empty queue clears the head slot. -/
theorem pop_snd_buffer {T : Type} (q : Queue T) (hne : q.is_empty = false) :
    (q.pop).2.buffer = Function.update q.buffer q.head none := by
  unfold Queue.pop Queue.get_first_position
  rw [if_neg (by simp [hne])]
  dsimp only
  split <;> rfl

/-- The head after a `pop` on a non-empty queue: it advances past the
popped slot, or re-anchors on the tail when the queue has drained. -/
theorem pop_snd_head_iff {T : Type} (q : Queue T) (hne : q.is_empty = false) :
    (q.pop).2.head =
      if (⟨q.capacity, (if q.head + 1 ≥ q.capacity then 0 else q.head + 1), q.tail,
            Function.update q.buffer q.head none⟩ : Queue T).is_empty = true ∨
          (q.buffer q.head).isNone = true ∨
          (Function.update q.buffer q.head none
            (if q.head + 1 ≥ q.capacity then 0 else q.head + 1)).isNone = true
      then q.tail
      else (if q.head + 1 ≥ q.capacity then 0 else q.head + 1) := by
  unfold Queue.pop Queue.get_next_first_position Queue.get_first_position
  rw [if_neg (by simp [hne])]
  dsimp only
  rw [apply_ite Queue.head]

/-- Appending one element does not change entries short of or past the
original length. -/
theorem appended_getElem? {T : Type} (xs : List T) (x : T) (k : Nat)
    (hk : k ≠ xs.length) : (xs ++ [x])[k]? = xs[k]? := by
  rcases Nat.lt_or_ge k xs.length with hlt | hge
  · exact List.getElem?_append_left hlt
  · rw [List.getElem?_eq_none (by simp; omega), List.getElem?_eq_none (by omega)]

/-- `push` refines appending on the abstract list, evicting the oldest
item when the queue is full. -/
theorem QueueRepr.push {T : Type} {q : Queue T} {xs : List T}
    (h : QueueRepr q xs) (x : T) :
    QueueRepr (q.push x)
      (if xs.length = q.capacity then xs.drop 1 ++ [x] else xs ++ [x]) := by
  obtain ⟨hc1, hcM, hhd, hlen, htl, hbuf⟩ := h
  have hcap0 : q.capacity ≠ 0 := by omega
  have htlt : q.tail < q.capacity := by
    rw [htl]
    exact Nat.mod_lt _ (by omega)
  have hcap : (q.push x).capacity = q.capacity := push_capacity q x
  by_cases hemp : xs = []
  · subst hemp
    have htl' : q.tail = q.head := by
      simpa [Nat.mod_eq_of_lt hhd] using htl
    have hball : ∀ i, q.buffer i = none := by
      intro i
      have hb := hbuf i
      simpa using hb
    have hgnp : q.get_next_position = q.head := by
      rw [gnp_of_none q (hball q.tail), htl']
    have htail : (q.push x).tail = q.head := by
      rw [push_tail q x hcap0, hgnp]
    have hbuffer : (q.push x).buffer = Function.update q.buffer q.head (some x) := by
      rw [push_buffer q x hcap0, hgnp]
    have hhead : (q.push x).head = q.head := by
      rw [push_head_iff q x hcap0, hgnp]
      by_cases hne : (if q.head + 1 ≥ q.capacity then 0 else q.head + 1) = q.head
      · rw [hne]
        split <;> rfl
      · rw [Function.update_noteq hne, hball]
        simp
    rw [if_neg (by simp; omega), List.nil_append]
    refine ⟨by rw [hcap]; exact hc1, by rw [hcap]; exact hcM,
      by rw [hcap, hhead]; exact hhd, by rw [hcap]; simp; omega,
      by rw [htail, hhead, hcap]; simp [Nat.mod_eq_of_lt hhd], ?_⟩
    intro i
    rw [hbuffer, hcap, hhead]
    by_cases hi : i < q.capacity
    · rw [if_pos hi]
      by_cases hieq : i = q.head
      · subst hieq
        rw [Function.update_same]
        have hj0 : (q.head + q.capacity - q.head) % q.capacity = 0 := by
          have he : q.head + q.capacity - q.head = q.capacity := by omega
          rw [he, Nat.mod_self]
        rw [hj0]
        rfl
      · rw [Function.update_noteq hieq, hball i]
        have hj : (i + q.capacity - q.head) % q.capacity ≠ 0 := by
          intro h0
          have hthis := (idx_eq_iff hhd hi (by omega)).mp h0
          rw [Nat.add_zero, Nat.mod_eq_of_lt hhd] at hthis
          exact hieq hthis
        rw [List.getElem?_eq_none (by simp; omega)]
    · rw [if_neg hi]
      rw [Function.update_noteq (by omega), hball i]
  · have hlen1 : 1 ≤ xs.length := by
      cases xs
      · simp at hemp
      · simp
    have hjt : (q.tail + q.capacity - q.head) % q.capacity = xs.length - 1 := by
      rw [htl, idx_roundtrip _ hhd, Nat.mod_eq_of_lt (by omega)]
    have hbt : q.buffer q.tail = xs[xs.length - 1]? := by
      have hb := hbuf q.tail
      rw [if_pos htlt, hjt] at hb
      exact hb
    have hlast : xs.length - 1 < xs.length := by omega
    have hbts : q.buffer q.tail = some (xs.get ⟨xs.length - 1, hlast⟩) := by
      rw [hbt, List.getElem?_eq_getElem hlast]
      rfl
    have hgnp : q.get_next_position = (q.head + xs.length) % q.capacity := by
      rw [gnp_of_some q _ hbts htlt, htl, Nat.mod_add_mod]
      congr 1
      omega
    have htail : (q.push x).tail = (q.head + xs.length) % q.capacity := by
      rw [push_tail q x hcap0, hgnp]
    have hbuffer : (q.push x).buffer =
        Function.update q.buffer ((q.head + xs.length) % q.capacity) (some x) := by
      rw [push_buffer q x hcap0, hgnp]
    have ht'lt : (q.head + xs.length) % q.capacity < q.capacity :=
      Nat.mod_lt _ (by omega)
    have hn2 : (if (q.head + xs.length) % q.capacity + 1 ≥ q.capacity then 0
        else (q.head + xs.length) % q.capacity + 1) =
        (q.head + xs.length + 1) % q.capacity := by
      rw [wrapAt_eq_mod (by omega) (by omega), Nat.mod_add_mod]
    by_cases hfull : xs.length = q.capacity
    · -- full queue: evict the oldest
      have ht'hd : (q.head + xs.length) % q.capacity = q.head := by
        rw [hfull, Nat.add_mod_right, Nat.mod_eq_of_lt hhd]
      have hcapge : 1 ≤ q.capacity := hc1
      have hhead : (q.push x).head = (q.head + 1) % q.capacity := by
        rw [push_head_iff q x hcap0, hgnp, hn2]
        have hsucc : (q.head + xs.length + 1) % q.capacity =
            (q.head + 1) % q.capacity := by
          have he : q.head + xs.length + 1 = q.head + 1 + q.capacity := by omega
          rw [he, Nat.add_mod_right]
        rw [hsucc, ht'hd]
        have hC : (Function.update q.buffer q.head (some x)
            ((q.head + 1) % q.capacity)).isSome = true := by
          by_cases hcap1 : q.capacity = 1
          · have hh0 : q.head = 0 := by omega
            have hm : (q.head + 1) % q.capacity = q.head := by
              rw [hh0, hcap1]
            rw [hm, Function.update_same]
            rfl
          · have hne : (q.head + 1) % q.capacity ≠ q.head := by
              intro heq
              rcases Nat.lt_or_ge (q.head + 1) q.capacity with hlt | hge
              · rw [Nat.mod_eq_of_lt hlt] at heq
                omega
              · have hh1 : q.head + 1 = q.capacity := by omega
                rw [hh1, Nat.mod_self] at heq
                omega
            rw [Function.update_noteq hne]
            have hb := hbuf ((q.head + 1) % q.capacity)
            rw [if_pos (show (q.head + 1) % q.capacity < q.capacity from
                Nat.mod_lt _ (by omega)),
              idx_roundtrip 1 hhd,
              Nat.mod_eq_of_lt (show 1 < q.capacity by omega)] at hb
            rw [hb, List.getElem?_eq_getElem (by omega)]
            rfl
        rw [if_pos hC]
      have hlen' : (xs.drop 1 ++ [x]).length = q.capacity := by
        simp
        omega
      rw [if_pos hfull]
      refine ⟨by rw [hcap]; exact hc1, by rw [hcap]; exact hcM,
        by rw [hcap, hhead]; exact Nat.mod_lt _ (by omega),
        by rw [hcap, hlen'], ?_, ?_⟩
      · rw [htail, hhead, hcap, hlen', ht'hd, Nat.mod_add_mod]
        have he : q.head + 1 + (q.capacity - 1) = q.head + q.capacity := by omega
        rw [he, Nat.add_mod_right, Nat.mod_eq_of_lt hhd]
      · intro i
        rw [hbuffer, hcap, hhead, ht'hd]
        by_cases hi : i < q.capacity
        · rw [if_pos hi]
          by_cases hieq : i = q.head
          · subst hieq
            rw [Function.update_same]
            have hj : (q.head + q.capacity - (q.head + 1) % q.capacity) %
                q.capacity = q.capacity - 1 := by
              rw [idx_eq_iff
                (show (q.head + 1) % q.capacity < q.capacity from
                  Nat.mod_lt _ (by omega)) hhd (by omega), Nat.mod_add_mod]
              have he : q.head + 1 + (q.capacity - 1) = q.head + q.capacity := by
                omega
              rw [he, Nat.add_mod_right, Nat.mod_eq_of_lt hhd]
            rw [hj, List.getElem?_append_right (by simp; omega)]
            simp [hfull]
          · rw [Function.update_noteq hieq]
            have hb := hbuf i
            rw [if_pos hi] at hb
            rw [hb]
            have hk1 : (i + q.capacity - q.head) % q.capacity < q.capacity :=
              Nat.mod_lt _ (by omega)
            have hk0 : (i + q.capacity - q.head) % q.capacity ≠ 0 := by
              intro h0
              have hthis := (idx_eq_iff hhd hi (by omega)).mp h0
              rw [Nat.add_zero, Nat.mod_eq_of_lt hhd] at hthis
              exact hieq hthis
            have hj : (i + q.capacity - (q.head + 1) % q.capacity) % q.capacity =
                (i + q.capacity - q.head) % q.capacity - 1 := by
              rw [idx_eq_iff
                (show (q.head + 1) % q.capacity < q.capacity from
                  Nat.mod_lt _ (by omega)) hi (by omega), Nat.mod_add_mod]
              have he : q.head + 1 + ((i + q.capacity - q.head) % q.capacity - 1) =
                  q.head + (i + q.capacity - q.head) % q.capacity := by omega
              rw [he]
              exact (pos_roundtrip i hhd hi).symm
            rw [hj]
            have hkc : (i + q.capacity - q.head) % q.capacity - 1 <
                q.capacity - 1 := by omega
            rw [List.getElem?_append_left (by simp; omega), List.getElem?_drop]
            congr 1
            omega
        · rw [if_neg hi]
          rw [Function.update_noteq (by omega)]
          have hb := hbuf i
          rw [if_neg hi] at hb
          exact hb
    · -- queue not yet full: plain append
      have hltcap : xs.length < q.capacity := by omega
      have hhead : (q.push x).head = q.head := by
        rw [push_head_iff q x hcap0, hgnp, hn2]
        by_cases hlen2 : xs.length + 1 = q.capacity
        · have hn2hd : (q.head + xs.length + 1) % q.capacity = q.head := by
            have he : q.head + xs.length + 1 = q.head + q.capacity := by omega
            rw [he, Nat.add_mod_right, Nat.mod_eq_of_lt hhd]
          rw [hn2hd]
          split <;> rfl
        · have hC : (Function.update q.buffer ((q.head + xs.length) % q.capacity)
              (some x) ((q.head + xs.length + 1) % q.capacity)).isSome = false := by
            have hne : (q.head + xs.length + 1) % q.capacity ≠
                (q.head + xs.length) % q.capacity := by
              intro heq
              have h1 := idx_roundtrip (xs.length + 1) hhd
              have h2 := idx_roundtrip xs.length hhd
              rw [show q.head + (xs.length + 1) = q.head + xs.length + 1 by omega]
                at h1
              rw [heq] at h1
              rw [h2] at h1
              rw [Nat.mod_eq_of_lt (show xs.length + 1 < q.capacity by omega),
                Nat.mod_eq_of_lt (show xs.length < q.capacity by omega)] at h1
              omega
            rw [Function.update_noteq hne]
            have hb := hbuf ((q.head + xs.length + 1) % q.capacity)
            rw [if_pos (show (q.head + xs.length + 1) % q.capacity < q.capacity
                from Nat.mod_lt _ (by omega))] at hb
            rw [show q.head + xs.length + 1 = q.head + (xs.length + 1)
                from by omega] at hb
            rw [idx_roundtrip (xs.length + 1) hhd] at hb
            rw [Nat.mod_eq_of_lt (show xs.length + 1 < q.capacity by omega)] at hb
            rw [show q.head + xs.length + 1 = q.head + (xs.length + 1)
                from by omega]
            rw [hb, List.getElem?_eq_none (by omega)]
            rfl
          rw [hC]
          simp
      rw [if_neg hfull]
      refine ⟨by rw [hcap]; exact hc1, by rw [hcap]; exact hcM,
        by rw [hcap, hhead]; exact hhd, by rw [hcap]; simp; omega, ?_, ?_⟩
      · rw [htail, hhead, hcap]
        simp
      · intro i
        rw [hbuffer, hcap, hhead]
        by_cases hi : i < q.capacity
        · rw [if_pos hi]
          by_cases hieq : i = (q.head + xs.length) % q.capacity
          · subst hieq
            rw [Function.update_same]
            have hj : ((q.head + xs.length) % q.capacity + q.capacity - q.head) %
                q.capacity = xs.length := by
              rw [idx_roundtrip _ hhd, Nat.mod_eq_of_lt hltcap]
            rw [hj, List.getElem?_append_right (by omega)]
            simp
          · rw [Function.update_noteq hieq]
            have hb := hbuf i
            rw [if_pos hi] at hb
            rw [hb]
            have hkne : (i + q.capacity - q.head) % q.capacity ≠ xs.length := by
              intro hk
              have := (idx_eq_iff hhd hi (by omega)).mp hk
              exact hieq this
            rw [appended_getElem? xs x _ hkne]
        · rw [if_neg hi]
          rw [Function.update_noteq (by omega)]
          have hb := hbuf i
          rw [if_neg hi] at hb
          exact hb

/-- Popping an empty queue returns nothing and leaves the state alone. -/
theorem pop_of_empty {T : Type} (q : Queue T) (h : q.is_empty = true) :
    q.pop = (none, q) := by
  unfold Queue.pop
  rw [if_pos h]

/-- `pop` refines taking the head of the abstract list. -/
theorem QueueRepr.pop {T : Type} {q : Queue T} {xs : List T} (h : QueueRepr q xs) :
    (q.pop).1 = xs[0]? ∧ QueueRepr (q.pop).2 (xs.drop 1) := by
  obtain ⟨hc1, hcM, hhd, hlen, htl, hbuf⟩ := h
  have hcap0 : q.capacity ≠ 0 := by omega
  have hj0 : (q.head + q.capacity - q.head) % q.capacity = 0 := by
    have he : q.head + q.capacity - q.head = q.capacity := by omega
    rw [he, Nat.mod_self]
  have hbhd : q.buffer q.head = xs[0]? := by
    have hb := hbuf q.head
    rw [if_pos hhd, hj0] at hb
    exact hb
  rcases xs with - | ⟨y, ys⟩
  · have htl' : q.tail = q.head := by
      simpa [Nat.mod_eq_of_lt hhd] using htl
    have hemp : q.is_empty = true := by
      unfold Queue.is_empty
      rw [if_neg hcap0, if_pos ⟨htl'.symm, by rw [hbhd]; simp⟩]
    rw [pop_of_empty q hemp]
    exact ⟨rfl, hc1, hcM, hhd, hlen, htl, hbuf⟩
  · have hsome : q.buffer q.head = some y := by
      rw [hbhd]
      simp
    have hnemp : q.is_empty = false := by
      have hcond : ¬(q.head = q.tail ∧ (q.buffer q.head).isNone = true) := by
        rintro ⟨-, hcontr⟩
        rw [hsome] at hcontr
        simp at hcontr
      unfold Queue.is_empty
      rw [if_neg hcap0, if_neg hcond]
    have hcap' := pop_snd_capacity q
    have htail' := pop_snd_tail q
    have hbuffer' := pop_snd_buffer q hnemp
    have hn2 : (if q.head + 1 ≥ q.capacity then 0 else q.head + 1) =
        (q.head + 1) % q.capacity := wrapAt_eq_mod (by omega) (by omega)
    constructor
    · rw [pop_fst, hnemp]
      simpa using hbhd
    · rcases ys with - | ⟨z, zs⟩
      · -- the queue drains: the head re-anchors on the tail
        have htl1 : q.tail = q.head := by
          simpa [Nat.mod_eq_of_lt hhd] using htl
        have hupd : (Function.update q.buffer q.head none
            (if q.head + 1 ≥ q.capacity then 0 else q.head + 1)).isNone = true := by
          rw [hn2]
          by_cases hne : (q.head + 1) % q.capacity = q.head
          · rw [hne, Function.update_same]
            rfl
          · rw [Function.update_noteq hne]
            have hcap2 : 2 ≤ q.capacity := by
              by_contra hcap2
              apply hne
              have hcap1 : q.capacity = 1 := by omega
              have hh0 : q.head = 0 := by omega
              rw [hcap1, hh0]
            have hb := hbuf ((q.head + 1) % q.capacity)
            rw [if_pos (show (q.head + 1) % q.capacity < q.capacity from
                Nat.mod_lt _ (by omega)), idx_roundtrip 1 hhd,
              Nat.mod_eq_of_lt (show 1 < q.capacity by omega)] at hb
            rw [hb]
            rfl
        have hhead' : (q.pop).2.head = q.tail := by
          rw [pop_snd_head_iff q hnemp, if_pos (Or.inr (Or.inr hupd))]
        refine ⟨by rw [hcap']; exact hc1, by rw [hcap']; exact hcM,
          by rw [hcap', hhead', htl1]; exact hhd,
          by rw [hcap']; simp,
          by rw [htail', hhead', htl1, hcap']; simp [Nat.mod_eq_of_lt hhd], ?_⟩
        intro i
        rw [hbuffer', hcap', hhead', htl1]
        by_cases hieq : i = q.head
        · subst hieq
          rw [Function.update_same]
          split <;> simp
        · rw [Function.update_noteq hieq]
          have hb := hbuf i
          by_cases hi : i < q.capacity
          · rw [if_pos hi] at hb
            rw [hb, if_pos hi]
            have hk0 : (i + q.capacity - q.head) % q.capacity ≠ 0 := by
              intro h0
              have hthis := (idx_eq_iff hhd hi (by omega)).mp h0
              rw [Nat.add_zero, Nat.mod_eq_of_lt hhd] at hthis
              exact hieq hthis
            have h1 : ([y] : List T)[(i + q.capacity - q.head) % q.capacity]? =
                none := List.getElem?_eq_none (by simp; omega)
            have h2 : (List.drop 1 [y] :
                List T)[(i + q.capacity - q.head) % q.capacity]? = none := by simp
            rw [h1, h2]
          · rw [if_neg hi] at hb
            rw [hb, if_neg hi]
      · -- at least two items: the head advances
        have hlen2 : 2 ≤ (y :: z :: zs).length := by simp
        have hcap2 : 2 ≤ q.capacity := by
          have hl := hlen
          simp at hl
          omega
        have hne1 : (q.head + 1) % q.capacity ≠ q.head := by
          intro heq
          rcases Nat.lt_or_ge (q.head + 1) q.capacity with hlt | hge
          · rw [Nat.mod_eq_of_lt hlt] at heq
            omega
          · have hh1 : q.head + 1 = q.capacity := by omega
            rw [hh1, Nat.mod_self] at heq
            omega
        have hbn2 : q.buffer ((q.head + 1) % q.capacity) = some z := by
          have hb := hbuf ((q.head + 1) % q.capacity)
          rw [if_pos (show (q.head + 1) % q.capacity < q.capacity from
              Nat.mod_lt _ (by omega)), idx_roundtrip 1 hhd,
            Nat.mod_eq_of_lt (show 1 < q.capacity by omega)] at hb
          rw [hb]
          simp
        have hupd : (Function.update q.buffer q.head none
            ((q.head + 1) % q.capacity)).isNone = false := by
          rw [Function.update_noteq hne1, hbn2]
          rfl
        have hq2emp : (⟨q.capacity, (q.head + 1) % q.capacity, q.tail,
            Function.update q.buffer q.head none⟩ : Queue T).is_empty = false := by
          have hcond : ¬((⟨q.capacity, (q.head + 1) % q.capacity, q.tail,
              Function.update q.buffer q.head none⟩ : Queue T).head =
                (⟨q.capacity, (q.head + 1) % q.capacity, q.tail,
              Function.update q.buffer q.head none⟩ : Queue T).tail ∧
              ((⟨q.capacity, (q.head + 1) % q.capacity, q.tail,
              Function.update q.buffer q.head none⟩ : Queue T).buffer
                (⟨q.capacity, (q.head + 1) % q.capacity, q.tail,
              Function.update q.buffer q.head none⟩ : Queue T).head).isNone =
                true) := by
            rintro ⟨-, hcontr⟩
            rw [show (⟨q.capacity, (q.head + 1) % q.capacity, q.tail,
                Function.update q.buffer q.head none⟩ : Queue T).buffer =
                Function.update q.buffer q.head none from rfl] at hcontr
            rw [show (⟨q.capacity, (q.head + 1) % q.capacity, q.tail,
                Function.update q.buffer q.head none⟩ : Queue T).head =
                (q.head + 1) % q.capacity from rfl] at hcontr
            rw [hupd] at hcontr
            simp at hcontr
          unfold Queue.is_empty
          rw [if_neg hcap0, if_neg hcond]
        have hhead' : (q.pop).2.head = (q.head + 1) % q.capacity := by
          rw [pop_snd_head_iff q hnemp, hn2, if_neg]
          rintro (hcontr | hcontr | hcontr)
          · rw [hq2emp] at hcontr
            simp at hcontr
          · rw [hsome] at hcontr
            simp at hcontr
          · rw [hupd] at hcontr
            simp at hcontr
        refine ⟨by rw [hcap']; exact hc1, by rw [hcap']; exact hcM,
          by rw [hcap', hhead']; exact Nat.mod_lt _ (by omega), ?_, ?_, ?_⟩
        · rw [hcap']
          have hl := hlen
          simp at hl ⊢
          omega
        · rw [htail', hhead', hcap', htl, Nat.mod_add_mod]
          congr 1
          simp
          try omega
        · intro i
          rw [hbuffer', hcap', hhead']
          by_cases hi : i < q.capacity
          · rw [if_pos hi]
            by_cases hieq : i = q.head
            · subst hieq
              rw [Function.update_same]
              have hj : (q.head + q.capacity - (q.head + 1) % q.capacity) %
                  q.capacity = q.capacity - 1 := by
                rw [idx_eq_iff (show (q.head + 1) % q.capacity < q.capacity from
                    Nat.mod_lt _ (by omega)) hhd (by omega), Nat.mod_add_mod]
                have he : q.head + 1 + (q.capacity - 1) = q.head + q.capacity := by
                  omega
                rw [he, Nat.add_mod_right, Nat.mod_eq_of_lt hhd]
              rw [hj, List.getElem?_eq_none]
              have hl := hlen
              simp at hl ⊢
              omega
            · rw [Function.update_noteq hieq]
              have hb := hbuf i
              rw [if_pos hi] at hb
              rw [hb]
              have hk1 : (i + q.capacity - q.head) % q.capacity < q.capacity :=
                Nat.mod_lt _ (by omega)
              have hk0 : (i + q.capacity - q.head) % q.capacity ≠ 0 := by
                intro h0
                have hthis := (idx_eq_iff hhd hi (by omega)).mp h0
                rw [Nat.add_zero, Nat.mod_eq_of_lt hhd] at hthis
                exact hieq hthis
              have hj : (i + q.capacity - (q.head + 1) % q.capacity) % q.capacity =
                  (i + q.capacity - q.head) % q.capacity - 1 := by
                rw [idx_eq_iff (show (q.head + 1) % q.capacity < q.capacity from
                    Nat.mod_lt _ (by omega)) hi (by omega), Nat.mod_add_mod]
                have he : q.head + 1 +
                    ((i + q.capacity - q.head) % q.capacity - 1) =
                    q.head + (i + q.capacity - q.head) % q.capacity := by omega
                rw [he]
                exact (pos_roundtrip i hhd hi).symm
              rw [hj]
              obtain ⟨k', hk'⟩ :
                  ∃ k', (i + q.capacity - q.head) % q.capacity = k' + 1 :=
                ⟨(i + q.capacity - q.head) % q.capacity - 1, by omega⟩
              rw [hk']
              simp
          · rw [if_neg hi]
            rw [Function.update_noteq (by omega)]
            have hb := hbuf i
            rw [if_neg hi] at hb
            exact hb

/-- A fresh queue represents the empty list of items. -/
theorem reprNew (T : Type) (c : Nat) : QueueRepr (Queue.new T c) [] := by
  unfold QueueRepr Queue.new
  refine ⟨?_, ?_, ?_, ?_, ?_, ?_⟩ <;> simp [MAX_CAPACITY]

/-- `clear` refines emptying the abstract list. -/
theorem QueueRepr.clear {T : Type} {q : Queue T} {xs : List T}
    (h : QueueRepr q xs) : QueueRepr q.clear [] := by
  obtain ⟨hc1, hcM, -, -, -, -⟩ := h
  refine ⟨hc1, hcM, ?_, ?_, ?_, ?_⟩ <;> simp [Queue.clear]
  omega

/-- Every operation preserves representability by some abstract list. -/
theorem repr_applyQOp {T : Type} {q : Queue T} {xs : List T}
    (h : QueueRepr q xs) (op : QOp T) :
    ∃ ys, QueueRepr (applyQOp q op) ys := by
  rcases op with x | - | - | -
  · exact ⟨_, h.push x⟩
  · exact ⟨_, (QueueRepr.pop h).2⟩
  · exact ⟨xs, h⟩
  · exact ⟨[], h.clear⟩

/-- Every state reachable by a sequence of operations from a represented
state is represented by some abstract list. -/
theorem repr_runQOps {T : Type} {q : Queue T} {xs : List T}
    (h : QueueRepr q xs) (ops : List (QOp T)) :
    ∃ ys, QueueRepr (runQOps q ops) ys := by
  induction ops generalizing q xs with
  | nil => exact ⟨xs, h⟩
  | cons op ops ih =>
    obtain ⟨ys, hys⟩ := repr_applyQOp h op
    exact ih hys

/-- A represented state satisfies the specification's queue invariant. -/
theorem reprClaimInv {T : Type} {q : Queue T} {xs : List T}
    (h : QueueRepr q xs) : ClaimInv q := by
  obtain ⟨hc1, hcM, hhd, hlen, htl, hbuf⟩ := h
  refine ⟨hhd, by rw [htl]; exact Nat.mod_lt _ (by omega), hcM, ?_, ?_⟩
  · intro hemp
    unfold Queue.is_empty at hemp
    rw [if_neg (by omega : ¬q.capacity = 0)] at hemp
    by_cases hcond : q.head = q.tail ∧ (q.buffer q.head).isNone = true
    · exact ⟨hcond.1, Option.isNone_iff_eq_none.mp hcond.2⟩
    · rw [if_neg hcond] at hemp
      simp at hemp
  · intro hall
    have hb := hbuf q.head
    have hj0 : (q.head + q.capacity - q.head) % q.capacity = 0 := by
      have he : q.head + q.capacity - q.head = q.capacity := by omega
      rw [he, Nat.mod_self]
    rw [if_pos hhd, hj0, hall q.head] at hb
    have hxs : xs = [] := by
      cases xs with
      | nil => rfl
      | cons y ys => simp at hb
    subst hxs
    rw [htl]
    simp [Nat.mod_eq_of_lt hhd]

/-- C9: starting from `Queue::new(c)` for any requested capacity `c`
(clamped into `[1, MAX_CAPACITY]`), every sequence of push, pop, peek and
clear operations keeps `head < capacity` and `tail < capacity`, keeps
`capacity ≤ MAX_CAPACITY`, and whenever the queue is empty the cursors
coincide over a free slot — so every buffer index the operations use
stays within bounds. -/
theorem c9_queue_invariant (T : Type) (c : Nat) (ops : List (QOp T)) :
    ClaimInv (runQOps (Queue.new T c) ops) := by
  obtain ⟨ys, hys⟩ := repr_runQOps (reprNew T c) ops
  exact reprClaimInv hys

/-- Folding the abstract push over a list keeps the last `cap` items of
the concatenation, in order. -/
theorem foldl_evictPush {T : Type} (cap : Nat) (hc1 : 1 ≤ cap) :
    ∀ (l xs : List T), xs.length ≤ cap →
      List.foldl (evictPush cap) xs l =
        (xs ++ l).drop ((xs ++ l).length - cap) := by
  intro l
  induction l with
  | nil =>
    intro xs hxs
    rw [List.foldl_nil, List.append_nil,
      show xs.length - cap = 0 from by omega, List.drop_zero]
  | cons x l ih =>
    intro xs hxs
    by_cases hfull : xs.length = cap
    · rcases xs with - | ⟨y, ys⟩
      · rw [List.length_nil] at hfull
        omega
      · rw [List.foldl_cons,
          show evictPush cap (y :: ys) x = ys ++ [x] from by
            unfold evictPush
            rw [if_pos hfull, List.drop_one, List.tail_cons],
          ih (ys ++ [x]) (by simp at hfull ⊢; omega),
          List.append_assoc, List.singleton_append]
        have hL : (ys ++ x :: l).length - cap = l.length := by
          simp at hfull ⊢
          omega
        have hR : ((y :: ys) ++ x :: l).length - cap = l.length + 1 := by
          simp at hfull ⊢
          omega
        rw [hL, hR, List.cons_append, List.drop_succ_cons]
    · rw [List.foldl_cons,
        show evictPush cap xs x = xs ++ [x] from by
          unfold evictPush
          rw [if_neg hfull],
        ih (xs ++ [x]) (by simp; omega),
        List.append_assoc, List.singleton_append]

/-- Pushing never changes the clamped capacity. -/
theorem pushAll_capacity {T : Type} (q : Queue T) (l : List T) :
    (pushAll q l).capacity = q.capacity := by
  induction l generalizing q with
  | nil => rfl
  | cons x l ih =>
    rw [show pushAll q (x :: l) = pushAll (q.push x) l from rfl, ih,
      push_capacity]

/-- `pushAll` refines folding the abstract push over the items. -/
theorem reprPushAll {T : Type} {q : Queue T} {xs : List T}
    (h : QueueRepr q xs) (l : List T) :
    QueueRepr (pushAll q l) (List.foldl (evictPush q.capacity) xs l) := by
  induction l generalizing q xs with
  | nil => exact h
  | cons x l ih =>
    have hrec := ih (h.push x)
    rw [push_capacity] at hrec
    show QueueRepr (pushAll (q.push x) l)
      (List.foldl (evictPush q.capacity) (evictPush q.capacity xs x) l)
    exact hrec

/-- `n` successive pops return the stored items in arrival order, then
`none` once the queue has drained. -/
theorem reprPopsOf {T : Type} :
    ∀ (n : Nat) {q : Queue T} {xs : List T}, QueueRepr q xs →
      popsOf q n =
        (xs.take n).map some ++ List.replicate (n - xs.length) none := by
  intro n
  induction n with
  | zero =>
    intro q xs h
    simp [popsOf]
  | succ n ih =>
    intro q xs h
    obtain ⟨hfst, hrest⟩ := QueueRepr.pop h
    have hstep : popsOf q (n + 1) = (q.pop).1 :: popsOf (q.pop).2 n := rfl
    rw [hstep, hfst, ih hrest]
    rcases xs with - | ⟨y, ys⟩
    · simp [List.replicate_succ]
    · simp

/-- A represented queue stores at most `capacity` items in its backing
array. -/
theorem storedCount_le {T : Type} {q : Queue T} {xs : List T}
    (h : QueueRepr q xs) : storedCount q ≤ q.capacity := by
  obtain ⟨hc1, hcM, hhd, hlen, htl, hbuf⟩ := h
  unfold storedCount
  have hsplit : List.range MAX_CAPACITY = List.range q.capacity ++
      (List.range (MAX_CAPACITY - q.capacity)).map (q.capacity + ·) := by
    rw [← List.range_add]
    congr 1
    omega
  rw [hsplit, List.filter_append]
  have h2 : ((List.range (MAX_CAPACITY - q.capacity)).map
      (q.capacity + ·)).filter (fun i => (q.buffer i).isSome) = [] := by
    rw [List.filter_eq_nil_iff]
    intro a ha
    simp only [List.mem_map, List.mem_range] at ha
    obtain ⟨b, hb, rfl⟩ := ha
    simp only [hbuf]
    rw [if_neg (by omega : ¬q.capacity + b < q.capacity)]
    simp
  rw [h2, List.append_nil]
  exact le_trans (List.length_filter_le _ _) (le_of_eq (List.length_range _))

/-- C7: for every capacity `c` in `[1, MAX_CAPACITY]`, any sequence of
pushes into `Queue::new(c)` stores at most `c` items, and after pushing
more than `c` items with no intervening pops, `c + 1` successive pops
return exactly the last `c` pushed items in push order followed by
`none`. -/
theorem c7_capacity_and_eviction {T : Type} (c : Nat) (l : List T)
    (hc1 : 1 ≤ c) (hcM : c ≤ MAX_CAPACITY) (hlen : c < l.length) :
    (∀ l' : List T, storedCount (pushAll (Queue.new T c) l') ≤ c) ∧
    popsOf (pushAll (Queue.new T c) l) (c + 1) =
      (l.drop (l.length - c)).map some ++ [none] := by
  have hcM' : c ≤ 1000 := hcM
  have hcap : (Queue.new T c).capacity = c := by
    show min (max c 1) MAX_CAPACITY = c
    unfold MAX_CAPACITY
    omega
  have hrepr := reprNew T c
  constructor
  · intro l'
    have h2 := storedCount_le (reprPushAll hrepr l')
    rw [pushAll_capacity, hcap] at h2
    exact h2
  · have h1 := reprPushAll hrepr l
    rw [hcap] at h1
    have h2 : List.foldl (evictPush c) [] l = l.drop (l.length - c) := by
      rw [foldl_evictPush c hc1 l [] (by simp)]
      simp
    rw [h2] at h1
    have hlen2 : (l.drop (l.length - c)).length = c := by
      rw [List.length_drop]
      omega
    rw [reprPopsOf (c + 1) h1,
      List.take_of_length_le (by rw [hlen2]; omega), hlen2,
      show c + 1 - c = 1 from by omega, List.replicate_one]

/-- Witness for C7 at the specification's scenario: capacity 3, pushes
labelled 1..5, pops 3, 4, 5, then none. -/
theorem c7_witness :
    popsOf (pushAll (Queue.new Nat 3) [1, 2, 3, 4, 5]) 4 =
      [some 3, some 4, some 5, none] :=
  (c7_capacity_and_eviction 3 [1, 2, 3, 4, 5] (by decide) (by decide)
    (by decide)).2.trans (by decide)
